import Mathlib

/-!
Verification development for the trajectory normalization and token-accounting
engine of `viewer/parse_trajectory.py`.

Python strings are modelled as `List Char` (Python slicing, length and
concatenation are character-based, matching `List` operations).  Python token
counters are modelled as `Nat` (the provider-reported token fields are
non-negative counts).  The float division by the chars-per-token constant 3.5
is modelled as `2 * c / 7` in natural arithmetic: 3.5 is exactly representable
in binary floating point and `int(c / 3.5) = ⌊2c/7⌋` for every realistic
character count.  File-system access is modelled by passing the decoded file
contents (`Option` for a missing or undecodable file) directly to the parse
functions.  The secret-sanitization collaborator (out of scope per the spec,
consumed as a pure function) is passed as an explicit `sanitize` parameter.
-/

/-- Python strings, modelled as lists of characters. -/
abbrev Str := List Char

/-- Python `str.strip()`: drop whitespace from both ends. -/
def pyStrip (s : Str) : Str :=
  ((s.dropWhile Char.isWhitespace).reverse.dropWhile Char.isWhitespace).reverse

/-- Python `str.lower()` (ASCII case folding suffices for the strings used). -/
def lowerStr (s : Str) : Str := s.map Char.toLower

/-- Does `s` start with the literal `p`? -/
def startsWithL : Str → Str → Bool
  | [], _ => true
  | _ :: _, [] => false
  | p :: ps, c :: cs => p = c && startsWithL ps cs

/-- Python `needle in hay` substring test. -/
def hasSub (needle : Str) : Str → Bool
  | [] => needle.isEmpty
  | c :: cs => startsWithL needle (c :: cs) || hasSub needle cs

/-- Python truthy chain `a or b or ... or ""` over optional strings:
the first present, non-empty string, else the empty string. -/
def firstTruthy : List (Option Str) → Str
  | [] => []
  | some s :: rest => if s = [] then firstTruthy rest else s
  | none :: rest => firstTruthy rest

/-- Python `a or b` over optional strings: `a` when it is a non-empty string,
otherwise `b` unchanged. -/
def pyOrOpt (a b : Option Str) : Option Str :=
  if a.getD [] = [] then b else a

/-- Python `os.path.basename`: the part of the path after the last slash. -/
def pyBasename (p : Str) : Str :=
  (p.reverse.takeWhile (fun c => c ≠ '/')).reverse

/-- `_estimate_tokens_from_chars`: `0` for empty content, else
`max(1, int(char_count / 3.5))`; `int(c / 3.5) = 2c/7` in `Nat` division. -/
def estimateTokensFromChars (c : Nat) : Nat :=
  if c = 0 then 0 else max 1 (2 * c / 7)

/-- `TokenInfo` dataclass: four non-negative token counters. -/
structure TokenInfo where
  input_tokens : Nat := 0
  output_tokens : Nat := 0
  cache_read : Nat := 0
  cache_creation : Nat := 0
deriving DecidableEq

/-- Component-wise sum of two `TokenInfo` values (specification instrument
for aggregate-total statements). -/
def TokenInfo.add (a b : TokenInfo) : TokenInfo :=
  ⟨a.input_tokens + b.input_tokens, a.output_tokens + b.output_tokens,
   a.cache_read + b.cache_read, a.cache_creation + b.cache_creation⟩

/-- The all-zero `TokenInfo` (the dataclass defaults). -/
def TokenInfo.zero : TokenInfo := ⟨0, 0, 0, 0⟩

/-- `Event` dataclass: the canonical unit of the normalized stream. -/
structure Event where
  step : Nat
  timestamp : Option Str
  source : Str
  event_type : Str
  tool_name : Option Str
  summary : Str
  detail : Option Str
  tokens : Option TokenInfo
  line_num : Nat
  tool_id : Option Str := none
deriving DecidableEq

/-- `ParseResult` dataclass. -/
structure ParseResult where
  events : List Event
  total_lines : Nat
  session_id : Option Str := none
  model : Option Str := none
  agent_name : Option Str := none
deriving DecidableEq

/-- Sum of the `tokens` of a list of events (specification instrument). -/
def eventsTokenSum (es : List Event) : TokenInfo :=
  es.foldr (fun e acc => ((e.tokens).getD TokenInfo.zero).add acc) TokenInfo.zero

/-- A parsed tool-call argument dictionary.  Only the keys the engine actually
reads are modelled; `dumpsLen` carries the character length of the Python
`json.dumps` rendering of the whole dictionary, which the engine uses for
output-token estimation (`2` is the length of the rendering of the empty
dictionary). -/
structure ToolInput where
  command : Option Str := none
  cmd : Option Str := none
  bash_command : Option Str := none
  description : Option Str := none
  file_path : Option Str := none
  path : Option Str := none
  pattern : Option Str := none
  url : Option Str := none
  query : Option Str := none
  search_term : Option Str := none
  skill : Option Str := none
  args : Option Str := none
  prompt : Option Str := none
  task_id : Option Str := none
  raw : Option Str := none
  dumpsLen : Nat := 2
deriving DecidableEq

/-- The resolved command string of a bash-like tool call:
`tool_input.get("command") or tool_input.get("cmd") or
tool_input.get("bash_command") or ""`. -/
def getBashCmd (ti : ToolInput) : Str :=
  firstTruthy [ti.command, ti.cmd, ti.bash_command]

/-- The resolved file path: `tool_input.get("file_path") or
tool_input.get("path") or ""`. -/
def getFilePath (ti : ToolInput) : Str :=
  firstTruthy [ti.file_path, ti.path]

/-- Is `c` in the character class `[\w/]` of the experiment regex
(`\w` over ASCII plus the slash)? -/
def isWordSlash (c : Char) : Bool := c.isAlphanum || c = '_' || c = '/'

/-- Match `[\w/]*experiment` at the head of the input. -/
def reWordTail : Str → Bool
  | [] => false
  | c :: cs => startsWithL ("experiment".data) (c :: cs) || (isWordSlash c && reWordTail cs)

/-- Match `\s+[\w/]*experiment` at the head of the input. -/
def reAfterSp : Str → Bool
  | [] => false
  | c :: cs => c.isWhitespace && (reWordTail cs || reAfterSp cs)

/-- Strip the literal `p` from the head of `s`. -/
def dropLit : Str → Str → Option Str
  | [], s => some s
  | _ :: _, [] => none
  | p :: ps, c :: cs => if p = c then dropLit ps cs else none

/-- Match `python3?\s+[\w/]*experiment` at the head of the input
(the optional `3` is tried both ways, as regex backtracking does). -/
def reMatchHere (l : Str) : Bool :=
  match dropLit ("python".data) l with
  | none => false
  | some rest =>
    match rest with
    | '3' :: rest2 => reAfterSp rest2 || reAfterSp rest
    | _ => reAfterSp rest

/-- `re.search(r"python3?\s+[\w/]*experiment", cmd)`: match at any position. -/
def reSearchExperiment : Str → Bool
  | [] => false
  | c :: cs => reMatchHere (c :: cs) || reSearchExperiment cs

/-- The lowercase bash-alias set shared by the classifier, summarizer and
detail functions. -/
def bashAliases : List Str :=
  [("run_shell_command".data), ("run_command".data), ("execute_command".data), ("bash".data)]

/-- The guard of every bash branch: `name == "Bash" or lname in {...}`. -/
def isBashName (name : Str) : Bool :=
  name = ("Bash".data) || (lowerStr name) ∈ bashAliases

/-- `_categorize_tool`: map `(tool_name, tool_input)` to an `event_type`. -/
def categorizeTool (name : Str) (ti : ToolInput) : Str :=
  let lname := lowerStr name
  if name = ("Skill".data) then
    let skill := (ti.skill).getD []
    if hasSub ("search-papers".data) skill then "literature_review".data else "other".data
  else if isBashName name then
    let cmd := getBashCmd ti
    if hasSub ("submit_for_review".data) cmd || hasSub ("extract_and_generate_questions".data) cmd then
      "submission".data
    else if hasSub ("git clone".data) cmd then "git_clone".data
    else if reSearchExperiment cmd then "experiment".data
    else if hasSub ("pip install".data) cmd || hasSub ("uv pip install".data) cmd then
      "pip_install".data
    else if hasSub ("compile_latex".data) cmd then "paper_write".data
    else if hasSub ("matplotlib".data) cmd || hasSub ("create_figures".data) cmd then
      "plotting".data
    else if hasSub ("semantic_scholar".data) cmd || hasSub ("openalex".data) cmd
        || hasSub ("S2_API_KEY".data) cmd then
      "literature_review".data
    else "bash".data
  else if name = ("Read".data) || name = ("Glob".data) || name = ("Grep".data)
      || lname = ("read_file".data) || lname = ("grep_search".data)
      || lname = ("glob_search".data) || lname = ("list_directory".data) then
    "file_read".data
  else if name = ("Write".data) || name = ("Edit".data)
      || lname = ("write_file".data) || lname = ("edit_file".data)
      || lname = ("update_file".data) || lname = ("replace_in_file".data) then
    let path := getFilePath ti
    if hasSub (".tex".data) path || hasSub (".bib".data) path || hasSub ("/latex/".data) path then
      "paper_write".data
    else if hasSub ("/figures/".data) path then "plotting".data
    else "file_write".data
  else if name = ("Task".data) then "subagent".data
  else if name = ("WebFetch".data) || name = ("WebSearch".data)
      || lname = ("web_fetch".data) || lname = ("web_search".data)
      || lname = ("fetch_url".data) || lname = ("google_search".data) then
    "web".data
  else if name = ("TodoWrite".data) || name = ("TaskOutput".data) || name = ("TaskStop".data) then
    "task_mgmt".data
  else "other".data

/-- `_summarize_tool`: the short human-readable summary of a tool call. -/
def summarizeTool (name : Str) (ti : ToolInput) : Str :=
  let lname := lowerStr name
  if isBashName name then
    let desc := (ti.description).getD []
    if desc ≠ [] then ("Bash: ".data) ++ desc
    else
      let cmd := getBashCmd ti
      ("Bash: ".data) ++ (cmd.takeWhile (fun c => c ≠ '\n')).take 120
  else if name = ("Read".data) || lname = ("read_file".data) then
    let path := getFilePath ti
    ("Read: ".data) ++ (if path = [] then "?".data else pyBasename path)
  else if name = ("Write".data) || lname = ("write_file".data) then
    let path := getFilePath ti
    ("Write: ".data) ++ (if path = [] then "?".data else pyBasename path)
  else if name = ("Edit".data) || lname = ("edit_file".data)
      || lname = ("update_file".data) || lname = ("replace_in_file".data) then
    let path := getFilePath ti
    ("Edit: ".data) ++ (if path = [] then "?".data else pyBasename path)
  else if name = ("Glob".data) || lname = ("glob_search".data) then
    ("Glob: ".data) ++ (ti.pattern).getD []
  else if name = ("Grep".data) || lname = ("grep_search".data) then
    ("Grep: ".data) ++ ((ti.pattern).getD []).take 80
  else if name = ("WebFetch".data) || lname = ("web_fetch".data) || lname = ("fetch_url".data) then
    ("WebFetch: ".data) ++ ((ti.url).getD []).take 80
  else if name = ("WebSearch".data) || lname = ("web_search".data)
      || lname = ("google_search".data) then
    ("WebSearch: ".data) ++ (firstTruthy [ti.query, ti.search_term]).take 80
  else if name = ("Skill".data) then
    ("Skill: ".data) ++ (ti.skill).getD [] ++ (" ".data) ++ ((ti.args).getD []).take 60
  else if name = ("Task".data) then
    ("Subagent: ".data) ++ (ti.description).getD []
  else if name = ("TodoWrite".data) then "TodoWrite".data
  else if name = ("TaskOutput".data) then
    ("TaskOutput: ".data) ++ (ti.task_id).getD []
  else name

/-- `_get_detail`: the optional expanded detail of a tool call. -/
def getDetail (name : Str) (ti : ToolInput) : Option Str :=
  let lname := lowerStr name
  if isBashName name then
    let cmd := getBashCmd ti
    if cmd.length > 120 then some (cmd.take 500) else none
  else if name = ("Write".data) || name = ("Edit".data)
      || lname = ("write_file".data) || lname = ("edit_file".data)
      || lname = ("update_file".data) || lname = ("replace_in_file".data) then
    some (getFilePath ti)
  else if name = ("Task".data) then
    let p := (ti.prompt).getD []
    if p ≠ [] then some (p.take 300) else none
  else none

/-- `usage` block of a format-A assistant message; missing fields default
to zero as `usage.get(key, 0)` does. -/
structure Usage where
  input_tokens : Nat := 0
  output_tokens : Nat := 0
  cache_read_input_tokens : Nat := 0
  cache_creation_input_tokens : Nat := 0
deriving DecidableEq

/-- `_extract_tokens`: map a usage block to `TokenInfo` (a missing or empty
usage dictionary yields all zeros, which the zero defaults express). -/
def extractTokens (u : Usage) : TokenInfo :=
  ⟨u.input_tokens, u.output_tokens, u.cache_read_input_tokens, u.cache_creation_input_tokens⟩

/-- A content fragment of a format-A assistant message.  Fragment types other
than the three recognized ones are `unknown` (skipped by the emit loop and
contributing no characters to the estimate). -/
inductive ABlock
  | thinking (text : Str)
  | text (text : Str)
  | tool_use (name : Str) (input : ToolInput) (id : Str)
  | unknown
deriving DecidableEq

/-- Character contribution of one content block in
`_estimate_output_tokens_from_content` (tool inputs in format A are
dictionaries, whose `json.dumps` length `ToolInput.dumpsLen` carries). -/
def blockChars : ABlock → Nat
  | .thinking t => t.length
  | .text t => t.length
  | .tool_use n inp _ => n.length + inp.dumpsLen
  | .unknown => 0

/-- `_estimate_output_tokens_from_content`. -/
def estimateOutputTokensFromContent (blocks : List ABlock) : Nat :=
  estimateTokensFromChars (blocks.foldr (fun b acc => blockChars b + acc) 0)

/-- `message` object of a format-A assistant line. -/
structure AMessage where
  id : Str := []
  usage : Usage := {}
  content : List ABlock := []
deriving DecidableEq

/-- A content block of a format-A user line.  List-valued `tool_result`
contents are modelled by their final string rendering (after the image
placeholder substitution), which is how the engine consumes them. -/
inductive UBlock
  | tool_result (is_error : Bool) (tool_use_id : Str) (content : Str)
  | text (text : Str)
  | unknown
deriving DecidableEq

/-- One decoded line of the format-A JSONL stream.  `invalid` covers blank
lines and lines that fail to decode as JSON (both skipped); `otherLine`
covers decoded objects of a type the normalizer ignores (including `system`
lines whose subtype is not `init`).  `stdout` is
`entry.get("tool_use_result", {}).get("stdout", "")`. -/
inductive ALine
  | invalid
  | systemInit (session_id : Option Str) (model : Option Str)
  | assistant (msg : AMessage)
  | user (content : List UBlock) (stdout : Str)
  | otherLine
deriving DecidableEq

/-- The per-parse accumulator `msg_content_blocks`, an insertion-ordered
dictionary from message id to the content blocks seen so far. -/
abbrev AccDict := List (Str × List ABlock)

/-- Lookup in the accumulator. -/
def accLookup : AccDict → Str → Option (List ABlock)
  | [], _ => none
  | (k, v) :: rest, m => if k = m then some v else accLookup rest m

/-- `msg_content_blocks.setdefault(msg_id, []).extend(content_blocks)`. -/
def accExtend : AccDict → Str → List ABlock → AccDict
  | [], m, bs => [(m, bs)]
  | (k, v) :: rest, m, bs =>
    if k = m then (k, v ++ bs) :: rest else (k, v) :: accExtend rest m bs

/-- The token-attribution decision of one assistant line (lines 606-619 of
the source): `None` when the message id was already counted; otherwise the
extracted usage with the output-token field overridden by the content-based
estimate when the estimate is larger.  `accAfter` is the accumulator after
the current line's blocks were appended. -/
def aTokenInfo (seen : List Str) (accAfter : AccDict) (msg : AMessage) : Option TokenInfo :=
  if msg.id ≠ [] ∧ msg.id ∈ seen then none
  else
    let ti := extractTokens msg.usage
    if msg.id ≠ [] then
      let allBlocks := (accLookup accAfter msg.id).getD msg.content
      let est := estimateOutputTokensFromContent allBlocks
      some (if est > ti.output_tokens then { ti with output_tokens := est } else ti)
    else some ti

/-- Emit events for the content blocks of one assistant line, threading the
step counter and the once-only token attachment (`msg_tokens_once`). -/
def emitABlocks (ln : Nat) : Nat → Option TokenInfo → List ABlock → List Event × Nat
  | stp, _, [] => ([], stp)
  | stp, tok, b :: rest =>
    match b with
    | .thinking t =>
      let e : Event :=
        { step := stp, timestamp := none, source := "agent".data,
          event_type := "thinking".data, tool_name := none,
          summary := ("Thinking: ".data) ++ t.take 100 ++ ("...".data),
          detail := if t.length > 100 then some (t.take 500) else none,
          tokens := tok, line_num := ln, tool_id := none }
      let (es, s') := emitABlocks ln (stp + 1) none rest
      (e :: es, s')
    | .text t =>
      let e : Event :=
        { step := stp, timestamp := none, source := "agent".data,
          event_type := "text".data, tool_name := none,
          summary := t.take 150,
          detail := if t.length > 150 then some t else none,
          tokens := tok, line_num := ln, tool_id := none }
      let (es, s') := emitABlocks ln (stp + 1) none rest
      (e :: es, s')
    | .tool_use name input id =>
      let et := categorizeTool name input
      let e : Event :=
        { step := stp, timestamp := none, source := "agent".data,
          event_type := et, tool_name := some name,
          summary := summarizeTool name input,
          detail := getDetail name input,
          tokens := tok, line_num := ln, tool_id := some id }
      let (es, s') := emitABlocks ln (stp + 1) none rest
      (e :: es, s')
    | .unknown => emitABlocks ln stp tok rest

/-- Emit events for the content blocks of one user line. -/
def emitUBlocks (ln : Nat) (stdout : Str) : Nat → List UBlock → List Event × Nat
  | stp, [] => ([], stp)
  | stp, b :: rest =>
    match b with
    | .tool_result is_error tid content =>
      let preview0 := if content ≠ [] then content.take 200 else "(empty)".data
      let summary :=
        if is_error then ("Error: ".data) ++ preview0
        else
          let preview := if stdout ≠ [] then stdout.take 200 else preview0
          ("Result: ".data) ++ preview
      let e : Event :=
        { step := stp, timestamp := none, source := "tool_result".data,
          event_type := "tool_result".data, tool_name := none,
          summary := summary,
          detail := if content.length > 200 then some (content.take 1000) else none,
          tokens := none, line_num := ln, tool_id := some tid }
      let (es, s') := emitUBlocks ln stdout (stp + 1) rest
      (e :: es, s')
    | .text t =>
      if pyStrip t ≠ [] then
        let e : Event :=
          { step := stp, timestamp := none, source := "user".data,
            event_type := "user_message".data, tool_name := none,
            summary := t.take 150,
            detail := if t.length > 150 then some t else none,
            tokens := none, line_num := ln, tool_id := none }
        let (es, s') := emitUBlocks ln stdout (stp + 1) rest
        (e :: es, s')
      else emitUBlocks ln stdout stp rest
    | .unknown => emitUBlocks ln stdout stp rest

/-- The events produced by one line together with the next step counter,
given the dedup set and the accumulator state before the line. -/
def aLineEvents (stp : Nat) (seen : List Str) (acc : AccDict) (ln : Nat) : ALine → List Event × Nat
  | .invalid => ([], stp)
  | .otherLine => ([], stp)
  | .systemInit _ mdl =>
    ([{ step := stp, timestamp := none, source := "system".data,
        event_type := "system".data, tool_name := none,
        summary := ("Session started — model=".data) ++ (mdl.getD ("None".data)),
        detail := none, tokens := none, line_num := ln, tool_id := none }], stp + 1)
  | .assistant msg =>
    let acc' := if msg.id ≠ [] then accExtend acc msg.id msg.content else acc
    emitABlocks ln stp (aTokenInfo seen acc' msg) msg.content
  | .user blocks stdout => emitUBlocks ln stdout stp blocks

/-- The dedup-set update of one line (`seen_msg_ids.add(msg_id)`). -/
def aLineSeen (seen : List Str) : ALine → List Str
  | .assistant msg => if msg.id ≠ [] ∧ msg.id ∉ seen then msg.id :: seen else seen
  | _ => seen

/-- The accumulator update of one line. -/
def aLineAcc (acc : AccDict) : ALine → AccDict
  | .assistant msg => if msg.id ≠ [] then accExtend acc msg.id msg.content else acc
  | _ => acc

/-- Per-parse mutable state of `parse_claude_code_jsonl`. -/
structure AState where
  step : Nat
  seen : List Str
  acc : AccDict
  events : List Event
  session_id : Option Str
  model : Option Str
deriving DecidableEq

/-- Process one line of the stream (the body of the `for` loop). -/
def processALine (st : AState) (ln : Nat) (l : ALine) : AState :=
  { step := (aLineEvents st.step st.seen st.acc ln l).2,
    seen := aLineSeen st.seen l,
    acc := aLineAcc st.acc l,
    events := st.events ++ (aLineEvents st.step st.seen st.acc ln l).1,
    session_id := match l with | .systemInit sid _ => sid | _ => st.session_id,
    model := match l with | .systemInit _ mdl => mdl | _ => st.model }

/-- Fold the line processor over the (index, line) stream. -/
def runA (st : AState) : List (Nat × ALine) → AState
  | [] => st
  | (i, l) :: rest => runA (processALine st i l) rest

/-- The initial state: the step counter continues from the resume offset. -/
def initAState (after_line : Nat) : AState :=
  { step := after_line, seen := [], acc := [], events := [],
    session_id := none, model := none }

/-- `_mask_events` applied to one event: route `summary` and any non-empty
`detail` through the sanitization collaborator. -/
def maskEvent (sanitize : Str → Str) (e : Event) : Event :=
  { e with
    summary := sanitize e.summary,
    detail := match e.detail with
      | none => none
      | some d => if d = [] then some [] else some (sanitize d) }

/-- `parse_claude_code_jsonl`: `file` is the decoded line list (`none` when
the file does not exist); lines before `after_line` are skipped; the step
counter continues from `after_line`; `total_lines` is the full physical line
count of the file. -/
def parse_claude_code_jsonl (sanitize : Str → Str) (file : Option (List ALine))
    (after_line : Nat) : ParseResult :=
  match file with
  | none => { events := [], total_lines := 0 }
  | some lines =>
    let kept := lines.enum.filter (fun p => after_line ≤ p.1)
    let fin := runA (initAState after_line) kept
    { events := fin.events.map (maskEvent sanitize),
      total_lines := lines.length,
      session_id := fin.session_id,
      model := fin.model,
      agent_name := none }

/-- The `cache_creation_input_tokens` value inside the metrics `extra`
dictionary: either a plain scalar or a nested dictionary of the two
ephemeral sub-buckets. -/
inductive CacheCreationVal
  | scalar (n : Nat)
  | buckets (ephemeral_5m_input_tokens ephemeral_1h_input_tokens : Nat)
deriving DecidableEq

/-- The `extra` dictionary of a format-B metrics block. -/
structure MetricsExtra where
  cache_creation_input_tokens : CacheCreationVal := .scalar 0
  cache_read_input_tokens : Nat := 0
  thoughts_tokens : Nat := 0
deriving DecidableEq

/-- The `metrics` block of a format-B step; `input_tokens` is `Option`
because the engine distinguishes a missing key from an explicit zero;
`extra` is `none` when the key is missing or not a dictionary. -/
structure BMetrics where
  prompt_tokens : Nat := 0
  completion_tokens : Nat := 0
  output_tokens : Nat := 0
  cached_tokens : Nat := 0
  input_tokens : Option Nat := none
  extra : Option MetricsExtra := none
deriving DecidableEq

/-- `_extract_tokens_from_metrics`; the argument is `none` when the metrics
block is missing or empty (Python falsy). -/
def extractTokensFromMetrics : Option BMetrics → TokenInfo
  | none => {}
  | some m =>
    let cache_creation :=
      match m.extra with
      | none => 0
      | some ex =>
        match ex.cache_creation_input_tokens with
        | .scalar n => n
        | .buckets a b => a + b
    let cache_read :=
      if m.cached_tokens ≠ 0 then m.cached_tokens
      else match m.extra with | some ex => ex.cache_read_input_tokens | none => 0
    let uncached :=
      match m.input_tokens with
      | some n => n
      | none =>
        if cache_read ≠ 0 ∧ cache_read ≤ m.prompt_tokens then m.prompt_tokens - cache_read
        else m.prompt_tokens
    { input_tokens := uncached,
      output_tokens := if m.completion_tokens ≠ 0 then m.completion_tokens else m.output_tokens,
      cache_read := cache_read,
      cache_creation := cache_creation }

/-- A tool-call argument value in format B: a dictionary, or a non-dictionary
value modelled by its `_stringify_content` rendering. -/
inductive BArgs
  | dict (ti : ToolInput)
  | nondict (rendered : Str)
deriving DecidableEq

/-- Python truthiness of an argument value (a dictionary is falsy exactly
when empty, i.e. when its `json.dumps` rendering has length 2). -/
def bArgTruthy : BArgs → Bool
  | .dict ti => ti.dumpsLen ≠ 2
  | .nondict r => r ≠ []

/-- One entry of a format-B `tool_calls` list.  `inputArg` models the
alternative `input` key read by the fallback chain. -/
structure BCall where
  function_name : Option Str := none
  name : Option Str := none
  arguments : Option BArgs := none
  inputArg : Option BArgs := none
  tool_call_id : Option Str := none
  id : Option Str := none
deriving DecidableEq

/-- `tool_name = call.get("function_name") or call.get("name") or ""`. -/
def bCallName (c : BCall) : Str := firstTruthy [c.function_name, c.name]

/-- `tool_input = call.get("arguments") or call.get("input") or {}`,
followed by the non-dictionary wrapping into `{"raw": ...}`. -/
def bCallInput (c : BCall) : ToolInput :=
  let v :=
    match c.arguments with
    | some a =>
      if bArgTruthy a then some a
      else match c.inputArg with
        | some b => if bArgTruthy b then some b else none
        | none => none
    | none =>
      match c.inputArg with
      | some b => if bArgTruthy b then some b else none
      | none => none
  match v with
  | some (.dict ti) => ti
  | some (.nondict r) => { raw := some r }
  | none => {}

/-- Character contribution of one tool call to the format-B output-token
estimate: the `json.dumps` length of its `arguments` value (`2` for the
missing-key default `{}`, the rendering length for a non-dictionary value)
plus the length of its `function_name`. -/
def bCallChars (c : BCall) : Nat :=
  (match c.arguments with
   | none => 2
   | some (.dict ti) => ti.dumpsLen
   | some (.nondict r) => r.length)
  + ((c.function_name).getD []).length

/-- One entry of `observation.results`; `content` is the
`_stringify_content` rendering of the raw content value. -/
structure BResult where
  source_call_id : Option Str := none
  content : Str := []
deriving DecidableEq

/-- One step of a format-B document.  `message` and `reasoning_content`
carry the string values (absent keys default to the empty string);
`tool_calls` and `results` are empty when missing or not lists;
`tool_result_is_error` is `step.get("extra", {}).get("tool_result_is_error",
False)`. -/
structure BStep where
  source : Str := "agent".data
  timestamp : Option Str := none
  message : Str := []
  reasoning_content : Str := []
  tool_calls : List BCall := []
  results : List BResult := []
  metrics : Option BMetrics := none
  tool_result_is_error : Bool := false
deriving DecidableEq

/-- `metrics.extra.thoughts_tokens` with zero defaults. -/
def bThoughts (s : BStep) : Nat :=
  match s.metrics with
  | some m => match m.extra with | some ex => ex.thoughts_tokens | none => 0
  | none => 0

/-- The visible-content character count of an agent step: message length
plus reasoning length plus the argument and name characters of every tool
call. -/
def bVisibleChars (s : BStep) : Nat :=
  s.message.length + s.reasoning_content.length
    + (s.tool_calls).foldr (fun c acc => bCallChars c + acc) 0

/-- The format-B output-token correction (lines 386-407): for agent steps,
override `output_tokens` with `estimated = visible-content estimate +
thoughts_tokens` when the estimate is larger. -/
def bCorrect (s : BStep) (ti : TokenInfo) : TokenInfo :=
  if s.source = ("agent".data) then
    let est := estimateTokensFromChars (bVisibleChars s) + bThoughts s
    if est > ti.output_tokens then { ti with output_tokens := est } else ti
  else ti

/-- The per-step `TokenInfo` after extraction and correction. -/
def bStepTokenInfo (s : BStep) : TokenInfo :=
  bCorrect s (extractTokensFromMetrics s.metrics)

/-- `token_dict`: the per-step token dictionary, `None` when all four
counters are zero. -/
def bTokenDict (s : BStep) : Option TokenInfo :=
  if bStepTokenInfo s = TokenInfo.zero then none else some (bStepTokenInfo s)

/-- The optional `thinking` event of an agent step.  Returns the emitted
events, the next event index and the remaining once-only token dictionary. -/
def bThinkingEvents (idx : Nat) (ts : Option Str) (reasoning : Str)
    (tok : Option TokenInfo) : List Event × Nat × Option TokenInfo :=
  if reasoning ≠ [] ∧ lowerStr reasoning ≠ ("null".data) ∧ lowerStr reasoning ≠ ("none".data) then
    ([{ step := idx, timestamp := ts, source := "agent".data,
        event_type := "thinking".data, tool_name := none,
        summary := ("Thinking: ".data) ++ reasoning.take 100 ++ ("...".data),
        detail := if reasoning.length > 100 then some (reasoning.take 1000) else none,
        tokens := tok, line_num := idx, tool_id := none }], idx + 1, none)
  else ([], idx, tok)

/-- The optional `text` event of an agent step (suppressed for synthetic
`Executed ...` placeholders that accompany tool calls). -/
def bMessageEvents (idx : Nat) (ts : Option Str) (message : Str) (hasCalls : Bool)
    (tok : Option TokenInfo) : List Event × Nat × Option TokenInfo :=
  if message ≠ [] ∧ ¬(hasCalls ∧ startsWithL ("Executed ".data) message) then
    ([{ step := idx, timestamp := ts, source := "agent".data,
        event_type := "text".data, tool_name := none,
        summary := message.take 150,
        detail := if message.length > 150 then some message else none,
        tokens := tok, line_num := idx, tool_id := none }], idx + 1, none)
  else ([], idx, tok)

/-- Events for the `tool_calls` list of an agent step. -/
def bToolCallEvents (ts : Option Str) : Nat → Option TokenInfo → List BCall →
    List Event × Nat × Option TokenInfo
  | idx, tok, [] => ([], idx, tok)
  | idx, tok, c :: rest =>
    let name := bCallName c
    let input := bCallInput c
    let e : Event :=
      { step := idx, timestamp := ts, source := "agent".data,
        event_type := categorizeTool name input, tool_name := some name,
        summary := summarizeTool name input,
        detail := getDetail name input,
        tokens := tok, line_num := idx, tool_id := pyOrOpt c.tool_call_id c.id }
    let (es, idx', tok') := bToolCallEvents ts (idx + 1) none rest
    (e :: es, idx', tok')

/-- Events for the `observation.results` list of an agent step. -/
def bResultEvents (ts : Option Str) (is_error : Bool) : Nat → List BResult →
    List Event × Nat
  | idx, [] => ([], idx)
  | idx, r :: rest =>
    let preview := if r.content ≠ [] then r.content.take 200 else "(empty)".data
    let e : Event :=
      { step := idx, timestamp := ts, source := "tool_result".data,
        event_type := "tool_result".data, tool_name := none,
        summary := (if is_error then "Error: ".data else "Result: ".data) ++ preview,
        detail := if r.content.length > 200 then some (r.content.take 1000) else none,
        tokens := none, line_num := idx, tool_id := r.source_call_id }
    let (es, idx') := bResultEvents ts is_error (idx + 1) rest
    (e :: es, idx')

/-- The single message event of a non-agent step. -/
def bSimpleEvent (idx : Nat) (ts : Option Str) (source event_type message : Str)
    (tok : Option TokenInfo) : List Event × Nat × Option TokenInfo :=
  if message ≠ [] then
    ([{ step := idx, timestamp := ts, source := source,
        event_type := event_type, tool_name := none,
        summary := message.take 150,
        detail := if message.length > 150 then some message else none,
        tokens := tok, line_num := idx, tool_id := none }], idx + 1, none)
  else ([], idx, tok)

/-- The synthesized placeholder event that carries otherwise-unattached
token accounting (lines 517-526). -/
def bPlaceholder (idx : Nat) (ts : Option Str) (source : Str)
    (tok : Option TokenInfo) : List Event :=
  match tok with
  | none => []
  | some t =>
    [{ step := idx, timestamp := ts,
       source := if source = ("agent".data) ∨ source = ("user".data) ∨ source = ("system".data)
                 then source else "agent".data,
       event_type := if source = ("agent".data) then "text".data else "other".data,
       tool_name := none,
       summary := ("Model turn (no visible content)".data),
       detail := none, tokens := some t, line_num := idx, tool_id := none }]

/-- All events of one format-B step, starting at event index `idx`. -/
def emitBStep (idx : Nat) (s : BStep) : List Event :=
  let tok0 := bTokenDict s
  let message := pyStrip s.message
  let reasoning := pyStrip s.reasoning_content
  let ts := s.timestamp
  let out :=
    if s.source = ("agent".data) then
      let p1 := bThinkingEvents idx ts reasoning tok0
      let p2 := bMessageEvents p1.2.1 ts message (s.tool_calls ≠ []) p1.2.2
      let p3 := bToolCallEvents ts p2.2.1 p2.2.2 s.tool_calls
      let p4 := bResultEvents ts s.tool_result_is_error p3.2.1 s.results
      (p1.1 ++ p2.1 ++ p3.1 ++ p4.1, p4.2, p3.2.2)
    else if s.source = ("user".data) then
      bSimpleEvent idx ts ("user".data) ("user_message".data) message tok0
    else if s.source = ("system".data) then
      bSimpleEvent idx ts ("system".data) ("system".data) message tok0
    else
      bSimpleEvent idx ts s.source ("other".data) message tok0
  out.1 ++ bPlaceholder out.2.1 ts s.source out.2.2

/-- The `agent` object of a format-B document. -/
structure BAgent where
  name : Option Str := none
  model_name : Option Str := none
deriving DecidableEq

/-- A format-B document. -/
structure BDoc where
  session_id : Option Str := none
  agent : Option BAgent := none
  steps : List BStep := []
deriving DecidableEq

/-- Fold `emitBStep` over the steps, numbering events by their position in
the growing `all_events` list (which `add_event` reads off `len(all_events)`). -/
def runBSteps : Nat → List BStep → List Event
  | _, [] => []
  | idx, s :: rest =>
    let es := emitBStep idx s
    es ++ runBSteps (idx + es.length) rest

/-- `parse_atif_trajectory`: `file` is `none` when the file does not exist,
`some none` when it exists but fails to decode as JSON. -/
def parse_atif_trajectory (sanitize : Str → Str) (file : Option (Option BDoc))
    (after_line : Nat) : ParseResult :=
  match file with
  | none => { events := [], total_lines := 0 }
  | some none => { events := [], total_lines := 0 }
  | some (some d) =>
    let all := runBSteps 0 d.steps
    { events := (all.filter (fun e => after_line ≤ e.line_num)).map (maskEvent sanitize),
      total_lines := all.length,
      session_id := d.session_id,
      model := (d.agent).bind (fun a => a.model_name),
      agent_name := (d.agent).bind (fun a => a.name) }

/-- A per-model price entry (USD per million tokens).  The Python float
literals are modelled by the decimal rationals they denote. -/
structure Prices where
  input : ℚ
  output : ℚ
  cache_read : ℚ
  cache_creation : ℚ
deriving DecidableEq

/-- Price entry shared by the two opus rows and used as the global default. -/
def opusPrices : Prices := ⟨5, 25, 1/2, 25/4⟩

/-- Price entry shared by the two sonnet rows and the sonnet family fallback. -/
def sonnetPrices : Prices := ⟨3, 15, 3/10, 15/4⟩

/-- Price entry of the haiku row and the haiku family fallback. -/
def haikuPrices : Prices := ⟨1, 5, 1/10, 5/4⟩

/-- Price entry of the gemini 3.x rows and the gemini family fallback. -/
def geminiPrices : Prices := ⟨2, 12, 1/5, 2⟩

/-- Price entry of the gemini-2.5-pro row. -/
def gemini25Prices : Prices := ⟨5/4, 10, 1/8, 5/4⟩

/-- The `pricing` dictionary, in insertion order. -/
def pricingTable : List (Str × Prices) :=
  [(("claude-opus-4-6".data), opusPrices),
   (("claude-opus-4-5".data), opusPrices),
   (("claude-sonnet-4-6".data), sonnetPrices),
   (("claude-sonnet-4-5".data), sonnetPrices),
   (("claude-haiku-4-5".data), haikuPrices),
   (("gemini-3.1-pro-preview".data), geminiPrices),
   (("gemini-3.1-pro".data), geminiPrices),
   (("gemini-3-pro".data), geminiPrices),
   (("gemini-2.5-pro".data), gemini25Prices)]

/-- Dictionary lookup (`pricing.get`). -/
def tableLookup : List (Str × Prices) → Str → Option Prices
  | [], _ => none
  | (k, v) :: rest, m => if k = m then some v else tableLookup rest m

/-- `sorted(pricing.keys(), key=len, reverse=True)`: the keys in descending
length order; Python's sort is stable, so equal-length keys keep their
insertion order.  Lengths: 22, 17, 17, 16, 15, 15, 14, 14, 12. -/
def pricingKeysByLen : List Str :=
  [("gemini-3.1-pro-preview".data),
   ("claude-sonnet-4-6".data),
   ("claude-sonnet-4-5".data),
   ("claude-haiku-4-5".data),
   ("claude-opus-4-6".data),
   ("claude-opus-4-5".data),
   ("gemini-3.1-pro".data),
   ("gemini-2.5-pro".data),
   ("gemini-3-pro".data)]

/-- The first key (in the sorted order) that is a substring of the
normalized model name. -/
def findSubstringKey : List Str → Str → Option Str
  | [], _ => none
  | k :: rest, m => if hasSub k m then some k else findSubstringKey rest m

/-- The pricing-resolution chain of `estimate_cost`: exact key, then
longest-substring match, then family fallback, then the global default. -/
def resolvePrices (model : Option Str) : Prices :=
  let model_norm := lowerStr (model.getD [])
  match tableLookup pricingTable model_norm with
  | some p => p
  | none =>
    match findSubstringKey pricingKeysByLen model_norm with
    | some k => (tableLookup pricingTable k).getD opusPrices
    | none =>
      if hasSub ("gemini".data) model_norm then geminiPrices
      else if hasSub ("sonnet".data) model_norm then sonnetPrices
      else if hasSub ("haiku".data) model_norm then haikuPrices
      else opusPrices

/-- The dictionary returned by `estimate_cost`. -/
structure CostSummary where
  input_tokens : Nat
  output_tokens : Nat
  cache_read_tokens : Nat
  cache_creation_tokens : Nat
  total_tokens : Nat
  estimated_cost_usd : ℚ
  model : Option Str
deriving DecidableEq

/-- Python `round(x, 2)` modelled as rounding to cents (the tie-breaking
mode never matters for the verified claims). -/
def roundCents (x : ℚ) : ℚ := ((round (x * 100) : ℤ) : ℚ) / 100

/-- The unrounded cost formula of `estimate_cost`. -/
def costFormula (t : TokenInfo) (p : Prices) : ℚ :=
  (t.input_tokens : ℚ) / 1000000 * p.input
    + (t.output_tokens : ℚ) / 1000000 * p.output
    + (t.cache_read : ℚ) / 1000000 * p.cache_read
    + (t.cache_creation : ℚ) / 1000000 * p.cache_creation

/-- `estimate_cost`: sum the token counters of the events that carry token
info and price them with the resolved entry.  `model` is `Option` because
the Python parameter may be `None` (`(model or "").lower()`). -/
def estimate_cost (events : List Event) (model : Option Str) : CostSummary :=
  let prices := resolvePrices model
  let t := eventsTokenSum events
  { input_tokens := t.input_tokens,
    output_tokens := t.output_tokens,
    cache_read_tokens := t.cache_read,
    cache_creation_tokens := t.cache_creation,
    total_tokens := t.input_tokens + t.output_tokens + t.cache_read + t.cache_creation,
    estimated_cost_usd := roundCents (costFormula t prices),
    model := model }

/-- The file contents of one session directory: `trajectory` is present
exactly when `find_trajectory_path` finds a file (inner `none` when that
file fails to decode), `claude_code` exactly when `find_claude_code_path`
finds one. -/
structure SessionDir where
  trajectory : Option (Option BDoc) := none
  claude_code : Option (List ALine) := none

/-- `detect_and_parse`: prefer the format-B trajectory when it yields any
event or a positive line count, fall back to the format-A transcript, and
return an empty result when neither file exists. -/
def detect_and_parse (sanitize : Str → Str) (dir : SessionDir) (after_line : Nat) :
    ParseResult :=
  match dir.trajectory with
  | some f =>
    let parsed := parse_atif_trajectory sanitize (some f) after_line
    if parsed.events ≠ [] ∨ parsed.total_lines > 0 then parsed
    else
      match dir.claude_code with
      | some lines => parse_claude_code_jsonl sanitize (some lines) after_line
      | none => { events := [], total_lines := 0 }
  | none =>
    match dir.claude_code with
    | some lines => parse_claude_code_jsonl sanitize (some lines) after_line
    | none => { events := [], total_lines := 0 }

/-- A content block the emit loop recognizes (and hence emits an event for). -/
def isRecognizedA : ABlock → Bool
  | .unknown => false
  | _ => true

/-- Renumbering helper: shift the `step` field of an event. -/
def shiftStep (d : Nat) (e : Event) : Event := { e with step := d + e.step }

lemma TokenInfo.zero_add (t : TokenInfo) : TokenInfo.zero.add t = t := by
  cases t; simp [TokenInfo.add, TokenInfo.zero]

lemma TokenInfo.add_zero (t : TokenInfo) : t.add TokenInfo.zero = t := by
  cases t; simp [TokenInfo.add, TokenInfo.zero]

lemma TokenInfo.add_assoc (a b c : TokenInfo) : (a.add b).add c = a.add (b.add c) := by
  cases a; cases b; cases c
  simp [TokenInfo.add]; omega

lemma eventsTokenSum_nil : eventsTokenSum [] = TokenInfo.zero := rfl

lemma eventsTokenSum_cons (e : Event) (es : List Event) :
    eventsTokenSum (e :: es) = ((e.tokens).getD TokenInfo.zero).add (eventsTokenSum es) := rfl

lemma eventsTokenSum_append (a b : List Event) :
    eventsTokenSum (a ++ b) = (eventsTokenSum a).add (eventsTokenSum b) := by
  induction a with
  | nil => simp [eventsTokenSum_nil, TokenInfo.zero_add]
  | cons e a ih =>
    simp only [List.cons_append, eventsTokenSum_cons, ih, TokenInfo.add_assoc]

lemma eventsTokenSum_map_of_tokens_eq (f : Event → Event) (es : List Event)
    (h : ∀ e, (f e).tokens = e.tokens) :
    eventsTokenSum (es.map f) = eventsTokenSum es := by
  induction es with
  | nil => rfl
  | cons e es ih => simp [eventsTokenSum_cons, ih, h]

lemma maskEvent_tokens (sanitize : Str → Str) (e : Event) :
    (maskEvent sanitize e).tokens = e.tokens := rfl

lemma maskEvent_step (sanitize : Str → Str) (e : Event) :
    (maskEvent sanitize e).step = e.step := rfl

lemma maskEvent_line_num (sanitize : Str → Str) (e : Event) :
    (maskEvent sanitize e).line_num = e.line_num := rfl

lemma shiftStep_tokens (d : Nat) (e : Event) : (shiftStep d e).tokens = e.tokens := rfl

lemma emitABlocks_snd (ln : Nat) (bs : List ABlock) :
    ∀ s tok, (emitABlocks ln s tok bs).2 = s + ((emitABlocks ln s tok bs).1).length := by
  induction bs with
  | nil => intro s tok; simp [emitABlocks]
  | cons b rest ih =>
    intro s tok
    cases b with
    | thinking t => simp only [emitABlocks]; rw [ih (s + 1) none]; simp; omega
    | text t => simp only [emitABlocks]; rw [ih (s + 1) none]; simp; omega
    | tool_use n i id => simp only [emitABlocks]; rw [ih (s + 1) none]; simp; omega
    | unknown => simp only [emitABlocks]; exact ih s tok

lemma emitABlocks_steps (ln : Nat) (bs : List ABlock) :
    ∀ s tok, ((emitABlocks ln s tok bs).1).map Event.step
      = List.range' s ((emitABlocks ln s tok bs).1).length := by
  induction bs with
  | nil => intro s tok; simp [emitABlocks]
  | cons b rest ih =>
    intro s tok
    cases b with
    | thinking t =>
      simp only [emitABlocks, List.map_cons, List.length_cons]
      rw [ih (s + 1) none, List.range'_succ]
    | text t =>
      simp only [emitABlocks, List.map_cons, List.length_cons]
      rw [ih (s + 1) none, List.range'_succ]
    | tool_use n i id =>
      simp only [emitABlocks, List.map_cons, List.length_cons]
      rw [ih (s + 1) none, List.range'_succ]
    | unknown => simp only [emitABlocks]; exact ih s tok

lemma emitABlocks_line (ln : Nat) (bs : List ABlock) :
    ∀ s tok e, e ∈ (emitABlocks ln s tok bs).1 → e.line_num = ln := by
  induction bs with
  | nil => intro s tok e h; simp [emitABlocks] at h
  | cons b rest ih =>
    intro s tok e h
    cases b with
    | thinking t =>
      simp only [emitABlocks, List.mem_cons] at h
      rcases h with h | h
      · rw [h]
      · exact ih (s + 1) none e h
    | text t =>
      simp only [emitABlocks, List.mem_cons] at h
      rcases h with h | h
      · rw [h]
      · exact ih (s + 1) none e h
    | tool_use n i id =>
      simp only [emitABlocks, List.mem_cons] at h
      rcases h with h | h
      · rw [h]
      · exact ih (s + 1) none e h
    | unknown => exact ih s tok e h

lemma emitABlocks_count (ln : Nat) (bs : List ABlock) :
    ∀ s tok, ((emitABlocks ln s tok bs).1).countP (fun e => (e.tokens).isSome)
      = if tok.isSome ∧ bs.any isRecognizedA then 1 else 0 := by
  induction bs with
  | nil => intro s tok; simp [emitABlocks]
  | cons b rest ih =>
    intro s tok
    cases b with
    | thinking t =>
      simp only [emitABlocks, List.countP_cons]
      rw [ih (s + 1) none]
      cases tok <;> simp [isRecognizedA, List.any_cons]
    | text t =>
      simp only [emitABlocks, List.countP_cons]
      rw [ih (s + 1) none]
      cases tok <;> simp [isRecognizedA, List.any_cons]
    | tool_use n i id =>
      simp only [emitABlocks, List.countP_cons]
      rw [ih (s + 1) none]
      cases tok <;> simp [isRecognizedA, List.any_cons]
    | unknown =>
      simp only [emitABlocks]
      rw [ih s tok]
      simp [isRecognizedA, List.any_cons]

lemma emitABlocks_sum (ln : Nat) (bs : List ABlock) :
    ∀ s tok, eventsTokenSum ((emitABlocks ln s tok bs).1)
      = if bs.any isRecognizedA then (tok.getD TokenInfo.zero) else TokenInfo.zero := by
  induction bs with
  | nil => intro s tok; simp [emitABlocks, eventsTokenSum_nil]
  | cons b rest ih =>
    intro s tok
    cases b with
    | thinking t =>
      simp only [emitABlocks, eventsTokenSum_cons]
      rw [ih (s + 1) none]
      cases tok <;> simp [isRecognizedA, List.any_cons, TokenInfo.zero_add, TokenInfo.add_zero]
    | text t =>
      simp only [emitABlocks, eventsTokenSum_cons]
      rw [ih (s + 1) none]
      cases tok <;> simp [isRecognizedA, List.any_cons, TokenInfo.zero_add, TokenInfo.add_zero]
    | tool_use n i id =>
      simp only [emitABlocks, eventsTokenSum_cons]
      rw [ih (s + 1) none]
      cases tok <;> simp [isRecognizedA, List.any_cons, TokenInfo.zero_add, TokenInfo.add_zero]
    | unknown =>
      simp only [emitABlocks]
      rw [ih s tok]
      simp [isRecognizedA, List.any_cons]

lemma emitABlocks_none_tokens (ln : Nat) (bs : List ABlock) :
    ∀ s e, e ∈ (emitABlocks ln s none bs).1 → e.tokens = none := by
  induction bs with
  | nil => intro s e h; simp [emitABlocks] at h
  | cons b rest ih =>
    intro s e h
    cases b with
    | thinking t =>
      simp only [emitABlocks, List.mem_cons] at h
      rcases h with h | h
      · rw [h]
      · exact ih (s + 1) e h
    | text t =>
      simp only [emitABlocks, List.mem_cons] at h
      rcases h with h | h
      · rw [h]
      · exact ih (s + 1) e h
    | tool_use n i id =>
      simp only [emitABlocks, List.mem_cons] at h
      rcases h with h | h
      · rw [h]
      · exact ih (s + 1) e h
    | unknown => exact ih s e h

lemma emitUBlocks_snd (ln : Nat) (so : Str) (bs : List UBlock) :
    ∀ s, (emitUBlocks ln so s bs).2 = s + ((emitUBlocks ln so s bs).1).length := by
  induction bs with
  | nil => intro s; simp [emitUBlocks]
  | cons b rest ih =>
    intro s
    cases b with
    | tool_result er tid c => simp only [emitUBlocks]; rw [ih (s + 1)]; simp; omega
    | text t =>
      simp only [emitUBlocks]
      by_cases h : pyStrip t ≠ []
      · rw [if_pos h]; simp only []; rw [ih (s + 1)]; simp; omega
      · rw [if_neg h]; exact ih s
    | unknown => simp only [emitUBlocks]; exact ih s

lemma emitUBlocks_steps (ln : Nat) (so : Str) (bs : List UBlock) :
    ∀ s, ((emitUBlocks ln so s bs).1).map Event.step
      = List.range' s ((emitUBlocks ln so s bs).1).length := by
  induction bs with
  | nil => intro s; simp [emitUBlocks]
  | cons b rest ih =>
    intro s
    cases b with
    | tool_result er tid c =>
      simp only [emitUBlocks, List.map_cons, List.length_cons]
      rw [ih (s + 1), List.range'_succ]
    | text t =>
      simp only [emitUBlocks]
      by_cases h : pyStrip t ≠ []
      · rw [if_pos h]; simp only [List.map_cons, List.length_cons]
        rw [ih (s + 1), List.range'_succ]
      · rw [if_neg h]; exact ih s
    | unknown => simp only [emitUBlocks]; exact ih s

lemma emitUBlocks_line (ln : Nat) (so : Str) (bs : List UBlock) :
    ∀ s e, e ∈ (emitUBlocks ln so s bs).1 → e.line_num = ln := by
  induction bs with
  | nil => intro s e h; simp [emitUBlocks] at h
  | cons b rest ih =>
    intro s e h
    cases b with
    | tool_result er tid c =>
      simp only [emitUBlocks, List.mem_cons] at h
      rcases h with h | h
      · rw [h]
      · exact ih (s + 1) e h
    | text t =>
      simp only [emitUBlocks] at h
      by_cases hp : pyStrip t ≠ []
      · rw [if_pos hp] at h
        simp only [List.mem_cons] at h
        rcases h with h | h
        · rw [h]
        · exact ih (s + 1) e h
      · rw [if_neg hp] at h; exact ih s e h
    | unknown => exact ih s e h

lemma emitUBlocks_tokens (ln : Nat) (so : Str) (bs : List UBlock) :
    ∀ s e, e ∈ (emitUBlocks ln so s bs).1 → e.tokens = none := by
  induction bs with
  | nil => intro s e h; simp [emitUBlocks] at h
  | cons b rest ih =>
    intro s e h
    cases b with
    | tool_result er tid c =>
      simp only [emitUBlocks, List.mem_cons] at h
      rcases h with h | h
      · rw [h]
      · exact ih (s + 1) e h
    | text t =>
      simp only [emitUBlocks] at h
      by_cases hp : pyStrip t ≠ []
      · rw [if_pos hp] at h
        simp only [List.mem_cons] at h
        rcases h with h | h
        · rw [h]
        · exact ih (s + 1) e h
      · rw [if_neg hp] at h; exact ih s e h
    | unknown => exact ih s e h

lemma aLineEvents_snd (s : Nat) (seen : List Str) (acc : AccDict) (ln : Nat) (l : ALine) :
    (aLineEvents s seen acc ln l).2 = s + ((aLineEvents s seen acc ln l).1).length := by
  cases l with
  | invalid => simp [aLineEvents]
  | otherLine => simp [aLineEvents]
  | systemInit sid mdl => simp [aLineEvents]
  | assistant msg => exact emitABlocks_snd ln msg.content s _
  | user blocks stdout => exact emitUBlocks_snd ln stdout blocks s

lemma aLineEvents_steps (s : Nat) (seen : List Str) (acc : AccDict) (ln : Nat) (l : ALine) :
    ((aLineEvents s seen acc ln l).1).map Event.step
      = List.range' s ((aLineEvents s seen acc ln l).1).length := by
  cases l with
  | invalid => simp [aLineEvents]
  | otherLine => simp [aLineEvents]
  | systemInit sid mdl => simp [aLineEvents]
  | assistant msg => exact emitABlocks_steps ln msg.content s _
  | user blocks stdout => exact emitUBlocks_steps ln stdout blocks s

lemma aLineEvents_line (s : Nat) (seen : List Str) (acc : AccDict) (ln : Nat) (l : ALine) :
    ∀ e, e ∈ (aLineEvents s seen acc ln l).1 → e.line_num = ln := by
  cases l with
  | invalid => intro e h; simp [aLineEvents] at h
  | otherLine => intro e h; simp [aLineEvents] at h
  | systemInit sid mdl =>
    intro e h; simp only [aLineEvents, List.mem_singleton] at h; rw [h]
  | assistant msg => exact emitABlocks_line ln msg.content s _
  | user blocks stdout => exact emitUBlocks_line ln stdout blocks s

lemma runA_append (L1 L2 : List (Nat × ALine)) :
    ∀ st, runA st (L1 ++ L2) = runA (runA st L1) L2 := by
  induction L1 with
  | nil => intro st; rfl
  | cons p rest ih =>
    intro st
    cases p with
    | mk i l => simpa [runA] using ih (processALine st i l)

/-- The events contributed by folding the line processor from a state with an
empty event list (the "delta" of a segment). -/
def deltaA (s : Nat) (seen : List Str) (acc : AccDict) (L : List (Nat × ALine)) : List Event :=
  (runA { step := s, seen := seen, acc := acc, events := [], session_id := none,
          model := none } L).events

lemma runA_events : ∀ (L : List (Nat × ALine)) (st : AState),
    (runA st L).events = st.events ++ deltaA st.step st.seen st.acc L := by
  intro L
  induction L with
  | nil => intro st; simp [runA, deltaA]
  | cons p rest ih =>
    cases p with
    | mk i l =>
      intro st
      show (runA (processALine st i l) rest).events = _
      rw [ih (processALine st i l)]
      have h2 : deltaA st.step st.seen st.acc ((i, l) :: rest)
          = (aLineEvents st.step st.seen st.acc i l).1
            ++ deltaA (aLineEvents st.step st.seen st.acc i l).2
                 (aLineSeen st.seen l) (aLineAcc st.acc l) rest := by
        show (runA (processALine _ i l) rest).events = _
        rw [ih (processALine _ i l)]
        simp [processALine, deltaA]
      rw [h2]
      simp [processALine]

lemma deltaA_cons (s : Nat) (seen : List Str) (acc : AccDict) (i : Nat) (l : ALine)
    (rest : List (Nat × ALine)) :
    deltaA s seen acc ((i, l) :: rest)
      = (aLineEvents s seen acc i l).1
        ++ deltaA (aLineEvents s seen acc i l).2 (aLineSeen seen l) (aLineAcc acc l) rest := by
  show (runA (processALine _ i l) rest).events = _
  rw [runA_events rest (processALine _ i l)]
  simp [processALine, deltaA]

lemma deltaA_nil (s : Nat) (seen : List Str) (acc : AccDict) :
    deltaA s seen acc [] = [] := rfl

lemma deltaA_steps : ∀ (L : List (Nat × ALine)) (s : Nat) (seen : List Str) (acc : AccDict),
    (deltaA s seen acc L).map Event.step = List.range' s (deltaA s seen acc L).length := by
  intro L
  induction L with
  | nil => intro s seen acc; simp [deltaA_nil]
  | cons p rest ih =>
    cases p with
    | mk i l =>
      intro s seen acc
      rw [deltaA_cons]
      rw [List.map_append, aLineEvents_steps, ih, aLineEvents_snd]
      rw [List.length_append]
      rw [List.range'_append_1, Nat.add_comm]

lemma emitABlocks_shift (ln : Nat) (bs : List ABlock) :
    ∀ s t tok, (emitABlocks ln (s + t) tok bs).1
      = ((emitABlocks ln t tok bs).1).map (shiftStep s) := by
  induction bs with
  | nil => intro s t tok; simp [emitABlocks]
  | cons b rest ih =>
    intro s t tok
    cases b with
    | thinking x =>
      simp only [emitABlocks, List.map_cons]
      refine List.cons_eq_cons.mpr ⟨by simp [shiftStep], ?_⟩
      · exact ih s (t + 1) none
    | text x =>
      simp only [emitABlocks, List.map_cons]
      refine List.cons_eq_cons.mpr ⟨by simp [shiftStep], ?_⟩
      · exact ih s (t + 1) none
    | tool_use n i id =>
      simp only [emitABlocks, List.map_cons]
      refine List.cons_eq_cons.mpr ⟨by simp [shiftStep], ?_⟩
      · exact ih s (t + 1) none
    | unknown => simp only [emitABlocks]; exact ih s t tok

lemma emitUBlocks_shift (ln : Nat) (so : Str) (bs : List UBlock) :
    ∀ s t, (emitUBlocks ln so (s + t) bs).1
      = ((emitUBlocks ln so t bs).1).map (shiftStep s) := by
  induction bs with
  | nil => intro s t; simp [emitUBlocks]
  | cons b rest ih =>
    intro s t
    cases b with
    | tool_result er tid c =>
      simp only [emitUBlocks, List.map_cons]
      refine List.cons_eq_cons.mpr ⟨by simp [shiftStep], ?_⟩
      · exact ih s (t + 1)
    | text x =>
      simp only [emitUBlocks]
      by_cases h : pyStrip x ≠ []
      · rw [if_pos h, if_pos h]
        simp only [List.map_cons]
        refine List.cons_eq_cons.mpr ⟨by simp [shiftStep], ?_⟩
        · exact ih s (t + 1)
      · rw [if_neg h, if_neg h]; exact ih s t
    | unknown => simp only [emitUBlocks]; exact ih s t

lemma aLineEvents_shift (s t : Nat) (seen : List Str) (acc : AccDict) (ln : Nat) (l : ALine) :
    (aLineEvents (s + t) seen acc ln l).1
      = ((aLineEvents t seen acc ln l).1).map (shiftStep s) := by
  cases l with
  | invalid => simp [aLineEvents]
  | otherLine => simp [aLineEvents]
  | systemInit sid mdl => simp [aLineEvents, shiftStep]
  | assistant msg => exact emitABlocks_shift ln msg.content s t _
  | user blocks stdout => exact emitUBlocks_shift ln stdout blocks s t

lemma deltaA_shift : ∀ (L : List (Nat × ALine)) (s t : Nat) (seen : List Str) (acc : AccDict),
    deltaA (s + t) seen acc L = (deltaA t seen acc L).map (shiftStep s) := by
  intro L
  induction L with
  | nil => intro s t seen acc; simp [deltaA_nil]
  | cons p rest ih =>
    cases p with
    | mk i l =>
      intro s t seen acc
      rw [deltaA_cons, deltaA_cons, List.map_append]
      rw [aLineEvents_shift s t seen acc i l]
      rw [aLineEvents_snd, aLineEvents_snd]
      rw [aLineEvents_shift s t seen acc i l, List.length_map]
      rw [show s + t + ((aLineEvents t seen acc i l).1).length
            = s + (t + ((aLineEvents t seen acc i l).1).length) by omega]
      rw [ih s (t + ((aLineEvents t seen acc i l).1).length) (aLineSeen seen l) (aLineAcc acc l)]

lemma accLookup_extend_self (acc : AccDict) (m : Str) (c : List ABlock) :
    accLookup (accExtend acc m c) m = some (((accLookup acc m).getD []) ++ c) := by
  induction acc with
  | nil => simp [accExtend, accLookup]
  | cons kv rest ih =>
    cases kv with
    | mk k v =>
      by_cases h : k = m
      · simp [accExtend, accLookup, h]
      · simp [accExtend, accLookup, h, ih]

lemma accLookup_extend_other (acc : AccDict) (m k : Str) (c : List ABlock) (h : k ≠ m) :
    accLookup (accExtend acc m c) k = accLookup acc k := by
  induction acc with
  | nil =>
    simp only [accExtend, accLookup]
    rw [if_neg (fun hh => h hh.symm)]
  | cons kv rest ih =>
    cases kv with
    | mk k' v =>
      by_cases h2 : k' = m
      · subst h2
        simp only [accExtend, if_pos rfl, accLookup]
        rw [if_neg (fun hh : k' = k => h hh.symm), if_neg (fun hh : k' = k => h hh.symm)]
      · simp only [accExtend, if_neg h2, accLookup]
        by_cases h3 : k' = k
        · rw [if_pos h3, if_pos h3]
        · rw [if_neg h3, if_neg h3, ih]

/-- The (non-empty) logical-call id carried by a line. -/
def aLineIds : ALine → List Str
  | .assistant msg => if msg.id ≠ [] then [msg.id] else []
  | _ => []

/-- All non-empty message ids of a segment of the stream. -/
def idsOfPairs : List (Nat × ALine) → List Str
  | [] => []
  | p :: rest => aLineIds p.2 ++ idsOfPairs rest

lemma aLineSeen_mem (seen : List Str) (l : ALine) (m : Str) :
    m ∈ aLineSeen seen l → m ∈ seen ∨ m ∈ aLineIds l := by
  cases l with
  | assistant msg =>
    simp only [aLineSeen, aLineIds]
    by_cases h : msg.id ≠ [] ∧ msg.id ∉ seen
    · rw [if_pos h]
      intro hm
      rcases List.mem_cons.1 hm with hm | hm
      · right; rw [if_pos h.1]; simp [hm]
      · left; exact hm
    · rw [if_neg h]; intro hm; left; exact hm
  | invalid => intro hm; left; exact hm
  | otherLine => intro hm; left; exact hm
  | systemInit sid mdl => intro hm; left; exact hm
  | user blocks stdout => intro hm; left; exact hm

lemma aLineAcc_mem (acc : AccDict) (l : ALine) (m : Str) :
    (accLookup (aLineAcc acc l) m).isSome →
      (accLookup acc m).isSome ∨ m ∈ aLineIds l := by
  cases l with
  | assistant msg =>
    simp only [aLineAcc, aLineIds]
    by_cases h : msg.id ≠ []
    · rw [if_pos h, if_pos h]
      by_cases h2 : m = msg.id
      · intro _; right; simp [h2]
      · rw [accLookup_extend_other acc msg.id m msg.content h2]
        intro hm; left; exact hm
    · rw [if_neg h, if_neg h]
      intro hm; left; exact hm
  | invalid => intro hm; left; exact hm
  | otherLine => intro hm; left; exact hm
  | systemInit sid mdl => intro hm; left; exact hm
  | user blocks stdout => intro hm; left; exact hm

lemma runA_seen_subset : ∀ (L : List (Nat × ALine)) (st : AState) (m : Str),
    m ∈ (runA st L).seen → m ∈ st.seen ∨ m ∈ idsOfPairs L := by
  intro L
  induction L with
  | nil => intro st m h; left; exact h
  | cons p rest ih =>
    cases p with
    | mk i l =>
      intro st m h
      rcases ih (processALine st i l) m h with h2 | h2
      · have h3 := aLineSeen_mem st.seen l m h2
        rcases h3 with h3 | h3
        · left; exact h3
        · right; simp [idsOfPairs]; left; exact h3
      · right; simp [idsOfPairs]; right; exact h2

lemma runA_acc_subset : ∀ (L : List (Nat × ALine)) (st : AState) (m : Str),
    (accLookup (runA st L).acc m).isSome →
      (accLookup st.acc m).isSome ∨ m ∈ idsOfPairs L := by
  intro L
  induction L with
  | nil => intro st m h; left; exact h
  | cons p rest ih =>
    cases p with
    | mk i l =>
      intro st m h
      rcases ih (processALine st i l) m h with h2 | h2
      · have h3 := aLineAcc_mem st.acc l m h2
        rcases h3 with h3 | h3
        · left; exact h3
        · right; simp [idsOfPairs]; left; exact h3
      · right; simp [idsOfPairs]; right; exact h2

lemma aTokenInfo_congr (seen1 seen2 : List Str) (acc1 acc2 : AccDict) (msg : AMessage)
    (hseen : (msg.id ∈ seen1) ↔ (msg.id ∈ seen2))
    (hacc : accLookup acc1 msg.id = accLookup acc2 msg.id) :
    aTokenInfo seen1 (accExtend acc1 msg.id msg.content) msg
      = aTokenInfo seen2 (accExtend acc2 msg.id msg.content) msg := by
  unfold aTokenInfo
  by_cases hid : msg.id ≠ []
  · by_cases hs : msg.id ∈ seen1
    · rw [if_pos (⟨hid, hs⟩ : msg.id ≠ [] ∧ msg.id ∈ seen1),
          if_pos (⟨hid, hseen.mp hs⟩ : msg.id ≠ [] ∧ msg.id ∈ seen2)]
    · rw [if_neg (show ¬(msg.id ≠ [] ∧ msg.id ∈ seen1) from fun hh => hs hh.2),
          if_neg (show ¬(msg.id ≠ [] ∧ msg.id ∈ seen2) from fun hh => hs (hseen.mpr hh.2))]
      rw [if_pos hid, if_pos hid]
      rw [accLookup_extend_self, accLookup_extend_self, hacc]
  · rw [if_neg (show ¬(msg.id ≠ [] ∧ msg.id ∈ seen1) from fun hh => hid hh.1),
        if_neg (show ¬(msg.id ≠ [] ∧ msg.id ∈ seen2) from fun hh => hid hh.1),
        if_neg hid, if_neg hid]

lemma aTokenInfo_empty_id (seen : List Str) (acc : AccDict) (msg : AMessage)
    (hid : ¬ msg.id ≠ []) : aTokenInfo seen acc msg = some (extractTokens msg.usage) := by
  unfold aTokenInfo
  rw [if_neg (show ¬(msg.id ≠ [] ∧ msg.id ∈ seen) from fun hh => hid hh.1), if_neg hid]

lemma mem_aLineSeen_self (seen : List Str) (msg : AMessage) (hid : msg.id ≠ []) :
    msg.id ∈ aLineSeen seen (ALine.assistant msg) := by
  simp only [aLineSeen]
  by_cases hs : msg.id ∈ seen
  · rw [if_neg (show ¬(msg.id ≠ [] ∧ msg.id ∉ seen) from fun hh => hh.2 hs)]; exact hs
  · rw [if_pos ⟨hid, hs⟩]; exact List.mem_cons_self _ _

lemma mem_aLineSeen_other (seen : List Str) (msg : AMessage) (m : Str)
    (h : m ≠ msg.id) : m ∈ aLineSeen seen (ALine.assistant msg) ↔ m ∈ seen := by
  simp only [aLineSeen]
  split
  · simp [List.mem_cons, h]
  · exact Iff.rfl

lemma deltaA_congr : ∀ (L : List (Nat × ALine)) (s : Nat) (seen1 seen2 : List Str)
    (acc1 acc2 : AccDict),
    (∀ m, m ∈ idsOfPairs L →
      ((m ∈ seen1) ↔ (m ∈ seen2)) ∧ accLookup acc1 m = accLookup acc2 m) →
    deltaA s seen1 acc1 L = deltaA s seen2 acc2 L := by
  intro L
  induction L with
  | nil => intro s seen1 seen2 acc1 acc2 _; rfl
  | cons p rest ih =>
    rcases p with ⟨i, l⟩
    intro s seen1 seen2 acc1 acc2 H
    have Hrest0 : ∀ m, m ∈ idsOfPairs rest →
        ((m ∈ seen1) ↔ (m ∈ seen2)) ∧ accLookup acc1 m = accLookup acc2 m := by
      intro m hm
      exact H m (by simp only [idsOfPairs, List.mem_append]; right; exact hm)
    rw [deltaA_cons, deltaA_cons]
    cases l with
    | assistant msg =>
      by_cases hid : msg.id ≠ []
      · have hm : ((msg.id ∈ seen1) ↔ (msg.id ∈ seen2))
            ∧ accLookup acc1 msg.id = accLookup acc2 msg.id := by
          apply H msg.id
          simp only [idsOfPairs, List.mem_append]
          left
          simp [aLineIds, hid]
        have hevents : aLineEvents s seen1 acc1 i (ALine.assistant msg)
            = aLineEvents s seen2 acc2 i (ALine.assistant msg) := by
          simp only [aLineEvents, if_pos hid]
          rw [aTokenInfo_congr seen1 seen2 acc1 acc2 msg hm.1 hm.2]
        rw [hevents]
        congr 1
        apply ih
        intro m' hm'
        rcases Hrest0 m' hm' with ⟨hs, ha⟩
        constructor
        · by_cases he : m' = msg.id
          · subst he
            constructor
            · intro _; exact mem_aLineSeen_self seen2 msg hid
            · intro _; exact mem_aLineSeen_self seen1 msg hid
          · rw [mem_aLineSeen_other seen1 msg m' he, mem_aLineSeen_other seen2 msg m' he]
            exact hs
        · simp only [aLineAcc, if_pos hid]
          by_cases he : m' = msg.id
          · subst he
            rw [accLookup_extend_self, accLookup_extend_self, hm.2]
          · rw [accLookup_extend_other acc1 msg.id m' msg.content he,
                accLookup_extend_other acc2 msg.id m' msg.content he]
            exact ha
      · have hevents : aLineEvents s seen1 acc1 i (ALine.assistant msg)
            = aLineEvents s seen2 acc2 i (ALine.assistant msg) := by
          simp only [aLineEvents, if_neg hid]
          rw [aTokenInfo_empty_id seen1 acc1 msg hid, aTokenInfo_empty_id seen2 acc2 msg hid]
        rw [hevents]
        congr 1
        apply ih
        intro m' hm'
        have hseen1 : aLineSeen seen1 (ALine.assistant msg) = seen1 := by
          simp only [aLineSeen]
          rw [if_neg (show ¬(msg.id ≠ [] ∧ msg.id ∉ seen1) from fun hh => hid hh.1)]
        have hseen2 : aLineSeen seen2 (ALine.assistant msg) = seen2 := by
          simp only [aLineSeen]
          rw [if_neg (show ¬(msg.id ≠ [] ∧ msg.id ∉ seen2) from fun hh => hid hh.1)]
        have hacc1 : aLineAcc acc1 (ALine.assistant msg) = acc1 := by
          simp only [aLineAcc]; rw [if_neg hid]
        have hacc2 : aLineAcc acc2 (ALine.assistant msg) = acc2 := by
          simp only [aLineAcc]; rw [if_neg hid]
        rw [hseen1, hseen2, hacc1, hacc2]
        exact Hrest0 m' hm'
    | invalid =>
      show _ ++ deltaA _ seen1 acc1 rest = _ ++ deltaA _ seen2 acc2 rest
      congr 1
      exact ih _ seen1 seen2 acc1 acc2 Hrest0
    | otherLine =>
      show _ ++ deltaA _ seen1 acc1 rest = _ ++ deltaA _ seen2 acc2 rest
      congr 1
      exact ih _ seen1 seen2 acc1 acc2 Hrest0
    | systemInit sid mdl =>
      show _ ++ deltaA _ seen1 acc1 rest = _ ++ deltaA _ seen2 acc2 rest
      congr 1
      exact ih _ seen1 seen2 acc1 acc2 Hrest0
    | user blocks stdout =>
      show _ ++ deltaA _ seen1 acc1 rest = _ ++ deltaA _ seen2 acc2 rest
      congr 1
      exact ih _ seen1 seen2 acc1 acc2 Hrest0

/-- The `(step, line_num)` pairs of an event list (statement instrument). -/
def pairsSL (es : List Event) : List (Nat × Nat) := es.map (fun e => (e.step, e.line_num))

/-- The diagonal pairing of an index list (statement instrument). -/
def diagIdx (r : List Nat) : List (Nat × Nat) := r.map (fun j => (j, j))

lemma pairs_append_comp (A B : List Event) (i : Nat)
    (hA : pairsSL A = diagIdx (List.range' i A.length))
    (hB : pairsSL B = diagIdx (List.range' (i + A.length) B.length)) :
    pairsSL (A ++ B) = diagIdx (List.range' i (A ++ B).length) := by
  simp only [pairsSL, List.map_append, List.length_append]
  show pairsSL A ++ pairsSL B = _
  rw [hA, hB, diagIdx, diagIdx, diagIdx, ← List.map_append, List.range'_append_1,
    Nat.add_comm B.length A.length]

lemma bThinking_pairs (idx : Nat) (ts : Option Str) (r : Str) (tok : Option TokenInfo) :
    pairsSL (bThinkingEvents idx ts r tok).1
        = diagIdx (List.range' idx ((bThinkingEvents idx ts r tok).1).length)
      ∧ (bThinkingEvents idx ts r tok).2.1 = idx + ((bThinkingEvents idx ts r tok).1).length := by
  unfold bThinkingEvents
  split
  · simp [pairsSL, diagIdx, List.range']
  · simp [pairsSL, diagIdx]

lemma bMessage_pairs (idx : Nat) (ts : Option Str) (m : Str) (hc : Bool)
    (tok : Option TokenInfo) :
    pairsSL (bMessageEvents idx ts m hc tok).1
        = diagIdx (List.range' idx ((bMessageEvents idx ts m hc tok).1).length)
      ∧ (bMessageEvents idx ts m hc tok).2.1 = idx + ((bMessageEvents idx ts m hc tok).1).length := by
  unfold bMessageEvents
  split
  · simp [pairsSL, diagIdx, List.range']
  · simp [pairsSL, diagIdx]

lemma bToolCall_pairs (ts : Option Str) (cs : List BCall) :
    ∀ idx tok, pairsSL (bToolCallEvents ts idx tok cs).1
        = diagIdx (List.range' idx ((bToolCallEvents ts idx tok cs).1).length)
      ∧ (bToolCallEvents ts idx tok cs).2.1 = idx + ((bToolCallEvents ts idx tok cs).1).length := by
  induction cs with
  | nil => intro idx tok; simp [bToolCallEvents, pairsSL, diagIdx]
  | cons c rest ih =>
    intro idx tok
    have h := ih (idx + 1) none
    constructor
    · simp only [bToolCallEvents, pairsSL, List.map_cons, List.length_cons]
      rw [List.range'_succ]
      simp only [diagIdx, List.map_cons]
      exact congrArg _ (h.1)
    · simp only [bToolCallEvents, List.length_cons]
      rw [h.2]
      omega

lemma bResult_pairs (ts : Option Str) (er : Bool) (rs : List BResult) :
    ∀ idx, pairsSL (bResultEvents ts er idx rs).1
        = diagIdx (List.range' idx ((bResultEvents ts er idx rs).1).length)
      ∧ (bResultEvents ts er idx rs).2 = idx + ((bResultEvents ts er idx rs).1).length := by
  induction rs with
  | nil => intro idx; simp [bResultEvents, pairsSL, diagIdx]
  | cons r rest ih =>
    intro idx
    have h := ih (idx + 1)
    constructor
    · simp only [bResultEvents, pairsSL, List.map_cons, List.length_cons]
      rw [List.range'_succ]
      simp only [diagIdx, List.map_cons]
      exact congrArg _ (h.1)
    · simp only [bResultEvents, List.length_cons]
      rw [h.2]
      omega

lemma bSimple_pairs (idx : Nat) (ts : Option Str) (so et m : Str) (tok : Option TokenInfo) :
    pairsSL (bSimpleEvent idx ts so et m tok).1
        = diagIdx (List.range' idx ((bSimpleEvent idx ts so et m tok).1).length)
      ∧ (bSimpleEvent idx ts so et m tok).2.1 = idx + ((bSimpleEvent idx ts so et m tok).1).length := by
  unfold bSimpleEvent
  split
  · simp [pairsSL, diagIdx, List.range']
  · simp [pairsSL, diagIdx]

lemma bPlaceholder_pairs (idx : Nat) (ts : Option Str) (so : Str) (tok : Option TokenInfo) :
    pairsSL (bPlaceholder idx ts so tok)
      = diagIdx (List.range' idx (bPlaceholder idx ts so tok).length) := by
  cases tok with
  | none => simp [bPlaceholder, pairsSL, diagIdx]
  | some t => simp [bPlaceholder, pairsSL, diagIdx, List.range']

lemma emitBStep_pairs (idx : Nat) (s : BStep) :
    pairsSL (emitBStep idx s) = diagIdx (List.range' idx (emitBStep idx s).length) := by
  simp only [emitBStep]
  by_cases h1 : s.source = ("agent".data)
  · rw [if_pos h1]
    have H1 := bThinking_pairs idx s.timestamp (pyStrip s.reasoning_content) (bTokenDict s)
    generalize hq1 : bThinkingEvents idx s.timestamp (pyStrip s.reasoning_content) (bTokenDict s) = q1 at H1 ⊢
    have H2 := bMessage_pairs q1.2.1 s.timestamp (pyStrip s.message) (s.tool_calls ≠ []) q1.2.2
    generalize hq2 : bMessageEvents q1.2.1 s.timestamp (pyStrip s.message) (decide (s.tool_calls ≠ [])) q1.2.2 = q2 at H2 ⊢
    have H3 := bToolCall_pairs s.timestamp s.tool_calls q2.2.1 q2.2.2
    generalize hq3 : bToolCallEvents s.timestamp q2.2.1 q2.2.2 s.tool_calls = q3 at H3 ⊢
    have H4 := bResult_pairs s.timestamp s.tool_result_is_error s.results q3.2.1
    generalize hq4 : bResultEvents s.timestamp s.tool_result_is_error q3.2.1 s.results = q4 at H4 ⊢
    have HP := bPlaceholder_pairs q4.2 s.timestamp s.source q3.2.2
    apply pairs_append_comp
    · apply pairs_append_comp
      · apply pairs_append_comp
        · apply pairs_append_comp
          · exact H1.1
          · rw [← H1.2]; exact H2.1
        · rw [List.length_append, ← Nat.add_assoc, ← H1.2, ← H2.2]; exact H3.1
      · have harith : idx + (q1.1 ++ q2.1 ++ q3.1).length = q3.2.1 := by
          simp only [List.length_append]
          rw [H3.2, H2.2, H1.2]
          omega
        rw [harith]
        exact H4.1
    · have harith : idx + (q1.1 ++ q2.1 ++ q3.1 ++ q4.1).length = q4.2 := by
        simp only [List.length_append]
        rw [H4.2, H3.2, H2.2, H1.2]
        omega
      rw [harith]
      exact HP
  · rw [if_neg h1]
    by_cases h2 : s.source = ("user".data)
    · rw [if_pos h2]
      have H := bSimple_pairs idx s.timestamp ("user".data) ("user_message".data) (pyStrip s.message) (bTokenDict s)
      generalize hq : bSimpleEvent idx s.timestamp ("user".data) ("user_message".data) (pyStrip s.message) (bTokenDict s) = q at H ⊢
      apply pairs_append_comp
      · exact H.1
      · rw [← H.2]; exact bPlaceholder_pairs q.2.1 s.timestamp s.source q.2.2
    · rw [if_neg h2]
      by_cases h3 : s.source = ("system".data)
      · rw [if_pos h3]
        have H := bSimple_pairs idx s.timestamp ("system".data) ("system".data) (pyStrip s.message) (bTokenDict s)
        generalize hq : bSimpleEvent idx s.timestamp ("system".data) ("system".data) (pyStrip s.message) (bTokenDict s) = q at H ⊢
        apply pairs_append_comp
        · exact H.1
        · rw [← H.2]; exact bPlaceholder_pairs q.2.1 s.timestamp s.source q.2.2
      · rw [if_neg h3]
        have H := bSimple_pairs idx s.timestamp s.source ("other".data) (pyStrip s.message) (bTokenDict s)
        generalize hq : bSimpleEvent idx s.timestamp s.source ("other".data) (pyStrip s.message) (bTokenDict s) = q at H ⊢
        apply pairs_append_comp
        · exact H.1
        · rw [← H.2]; exact bPlaceholder_pairs q.2.1 s.timestamp s.source q.2.2

lemma bThinking_sum (idx : Nat) (ts : Option Str) (r : Str) (tok : Option TokenInfo) :
    (eventsTokenSum (bThinkingEvents idx ts r tok).1).add
        (((bThinkingEvents idx ts r tok).2.2).getD TokenInfo.zero)
      = tok.getD TokenInfo.zero := by
  unfold bThinkingEvents
  split
  · simp [eventsTokenSum_cons, eventsTokenSum_nil, TokenInfo.add_zero]
  · simp [eventsTokenSum_nil, TokenInfo.zero_add]

lemma bMessage_sum (idx : Nat) (ts : Option Str) (m : Str) (hc : Bool)
    (tok : Option TokenInfo) :
    (eventsTokenSum (bMessageEvents idx ts m hc tok).1).add
        (((bMessageEvents idx ts m hc tok).2.2).getD TokenInfo.zero)
      = tok.getD TokenInfo.zero := by
  unfold bMessageEvents
  split
  · simp [eventsTokenSum_cons, eventsTokenSum_nil, TokenInfo.add_zero]
  · simp [eventsTokenSum_nil, TokenInfo.zero_add]

lemma bSimple_sum (idx : Nat) (ts : Option Str) (so et m : Str) (tok : Option TokenInfo) :
    (eventsTokenSum (bSimpleEvent idx ts so et m tok).1).add
        (((bSimpleEvent idx ts so et m tok).2.2).getD TokenInfo.zero)
      = tok.getD TokenInfo.zero := by
  unfold bSimpleEvent
  split
  · simp [eventsTokenSum_cons, eventsTokenSum_nil, TokenInfo.add_zero]
  · simp [eventsTokenSum_nil, TokenInfo.zero_add]

lemma bToolCall_sum (ts : Option Str) (cs : List BCall) :
    ∀ idx tok, (eventsTokenSum (bToolCallEvents ts idx tok cs).1).add
        (((bToolCallEvents ts idx tok cs).2.2).getD TokenInfo.zero)
      = tok.getD TokenInfo.zero := by
  induction cs with
  | nil => intro idx tok; simp [bToolCallEvents, eventsTokenSum_nil, TokenInfo.zero_add]
  | cons c rest ih =>
    intro idx tok
    have h := ih (idx + 1) none
    simp only [bToolCallEvents, eventsTokenSum_cons]
    rw [TokenInfo.add_assoc, h]
    simp [TokenInfo.add_zero]

lemma bResult_sum (ts : Option Str) (er : Bool) (rs : List BResult) :
    ∀ idx, eventsTokenSum (bResultEvents ts er idx rs).1 = TokenInfo.zero := by
  induction rs with
  | nil => intro idx; simp [bResultEvents, eventsTokenSum_nil]
  | cons r rest ih =>
    intro idx
    simp only [bResultEvents, eventsTokenSum_cons]
    rw [ih (idx + 1)]
    simp [TokenInfo.add_zero, TokenInfo.zero_add]

lemma bPlaceholder_sum (idx : Nat) (ts : Option Str) (so : Str) (tok : Option TokenInfo) :
    eventsTokenSum (bPlaceholder idx ts so tok) = tok.getD TokenInfo.zero := by
  cases tok with
  | none => simp [bPlaceholder, eventsTokenSum_nil]
  | some t => simp [bPlaceholder, eventsTokenSum_cons, eventsTokenSum_nil, TokenInfo.add_zero]

lemma bTokenDict_getD (s : BStep) :
    (bTokenDict s).getD TokenInfo.zero = bStepTokenInfo s := by
  unfold bTokenDict
  split
  · rename_i h; rw [Option.getD_none, h]
  · rw [Option.getD_some]

lemma emitBStep_sum (idx : Nat) (s : BStep) :
    eventsTokenSum (emitBStep idx s) = bStepTokenInfo s := by
  rw [← bTokenDict_getD s]
  simp only [emitBStep]
  by_cases h1 : s.source = ("agent".data)
  · rw [if_pos h1]
    have H1 := bThinking_sum idx s.timestamp (pyStrip s.reasoning_content) (bTokenDict s)
    generalize hq1 : bThinkingEvents idx s.timestamp (pyStrip s.reasoning_content) (bTokenDict s) = q1 at H1 ⊢
    have H2 := bMessage_sum q1.2.1 s.timestamp (pyStrip s.message) (s.tool_calls ≠ []) q1.2.2
    generalize hq2 : bMessageEvents q1.2.1 s.timestamp (pyStrip s.message) (decide (s.tool_calls ≠ [])) q1.2.2 = q2 at H2 ⊢
    have H3 := bToolCall_sum s.timestamp s.tool_calls q2.2.1 q2.2.2
    generalize hq3 : bToolCallEvents s.timestamp q2.2.1 q2.2.2 s.tool_calls = q3 at H3 ⊢
    have H4 := bResult_sum s.timestamp s.tool_result_is_error s.results q3.2.1
    generalize hq4 : bResultEvents s.timestamp s.tool_result_is_error q3.2.1 s.results = q4 at H4 ⊢
    rw [eventsTokenSum_append, eventsTokenSum_append, eventsTokenSum_append,
        eventsTokenSum_append, bPlaceholder_sum, H4, TokenInfo.add_zero,
        TokenInfo.add_assoc, TokenInfo.add_assoc, H3, H2, H1]
  · rw [if_neg h1]
    by_cases h2 : s.source = ("user".data)
    · rw [if_pos h2]
      have H := bSimple_sum idx s.timestamp ("user".data) ("user_message".data) (pyStrip s.message) (bTokenDict s)
      generalize hq : bSimpleEvent idx s.timestamp ("user".data) ("user_message".data) (pyStrip s.message) (bTokenDict s) = q at H ⊢
      rw [eventsTokenSum_append, bPlaceholder_sum, H]
    · rw [if_neg h2]
      by_cases h3 : s.source = ("system".data)
      · rw [if_pos h3]
        have H := bSimple_sum idx s.timestamp ("system".data) ("system".data) (pyStrip s.message) (bTokenDict s)
        generalize hq : bSimpleEvent idx s.timestamp ("system".data) ("system".data) (pyStrip s.message) (bTokenDict s) = q at H ⊢
        rw [eventsTokenSum_append, bPlaceholder_sum, H]
      · rw [if_neg h3]
        have H := bSimple_sum idx s.timestamp s.source ("other".data) (pyStrip s.message) (bTokenDict s)
        generalize hq : bSimpleEvent idx s.timestamp s.source ("other".data) (pyStrip s.message) (bTokenDict s) = q at H ⊢
        rw [eventsTokenSum_append, bPlaceholder_sum, H]

/-- Component-wise sum of the per-step token accounting of a document. -/
def stepsTokenSum (steps : List BStep) : TokenInfo :=
  steps.foldr (fun s acc => (bStepTokenInfo s).add acc) TokenInfo.zero

lemma runBSteps_sum : ∀ (steps : List BStep) (idx : Nat),
    eventsTokenSum (runBSteps idx steps) = stepsTokenSum steps := by
  intro steps
  induction steps with
  | nil => intro idx; rfl
  | cons s rest ih =>
    intro idx
    show eventsTokenSum (emitBStep idx s ++ runBSteps (idx + (emitBStep idx s).length) rest) = _
    rw [eventsTokenSum_append, emitBStep_sum, ih]
    rfl

lemma runBSteps_pairs : ∀ (steps : List BStep) (idx : Nat),
    pairsSL (runBSteps idx steps) = diagIdx (List.range' idx (runBSteps idx steps).length) := by
  intro steps
  induction steps with
  | nil => intro idx; simp [runBSteps, pairsSL, diagIdx]
  | cons s rest ih =>
    intro idx
    show pairsSL (emitBStep idx s ++ runBSteps (idx + (emitBStep idx s).length) rest) = _
    apply pairs_append_comp
    · exact emitBStep_pairs idx s
    · exact ih (idx + (emitBStep idx s).length)

lemma pairsSL_fst (es : List Event) : (pairsSL es).map Prod.fst = es.map Event.step := by
  simp [pairsSL, List.map_map]

lemma pairsSL_snd (es : List Event) : (pairsSL es).map Prod.snd = es.map Event.line_num := by
  simp [pairsSL, List.map_map]

lemma diagIdx_fst (r : List Nat) : (diagIdx r).map Prod.fst = r := by
  induction r with
  | nil => rfl
  | cons j rest ih => simp [diagIdx] at ih ⊢; exact ih

lemma diagIdx_snd (r : List Nat) : (diagIdx r).map Prod.snd = r := by
  induction r with
  | nil => rfl
  | cons j rest ih => simp [diagIdx] at ih ⊢; exact ih

lemma runBSteps_step_map (steps : List BStep) :
    (runBSteps 0 steps).map Event.step = List.range (runBSteps 0 steps).length := by
  have h := runBSteps_pairs steps 0
  have h2 := congrArg (List.map Prod.fst) h
  rw [pairsSL_fst, diagIdx_fst] at h2
  rw [h2, List.range_eq_range']

lemma runBSteps_line_map (steps : List BStep) :
    (runBSteps 0 steps).map Event.line_num = List.range (runBSteps 0 steps).length := by
  have h := runBSteps_pairs steps 0
  have h2 := congrArg (List.map Prod.snd) h
  rw [pairsSL_snd, diagIdx_snd] at h2
  rw [h2, List.range_eq_range']

lemma runBSteps_step_eq_line (steps : List BStep) (idx : Nat) :
    ∀ e, e ∈ runBSteps idx steps → e.step = e.line_num := by
  intro e he
  have h := runBSteps_pairs steps idx
  have hmem : (e.step, e.line_num) ∈ pairsSL (runBSteps idx steps) := by
    exact List.mem_map_of_mem _ he
  rw [h] at hmem
  simp only [diagIdx, List.mem_map] at hmem
  rcases hmem with ⟨j, _, hj⟩
  have h1 : e.step = j := by
    have := congrArg Prod.fst hj
    simpa using this.symm
  have h2 : e.line_num = j := by
    have := congrArg Prod.snd hj
    simpa using this.symm
  rw [h1, h2]

lemma parseA_events (sanitize : Str → Str) (lines : List ALine) (k : Nat) :
    (parse_claude_code_jsonl sanitize (some lines) k).events
      = (deltaA k [] [] ((lines.enum).filter (fun p => k ≤ p.1))).map (maskEvent sanitize) := by
  simp only [parse_claude_code_jsonl]
  rw [runA_events]
  rfl

lemma parseB_events (sanitize : Str → Str) (d : BDoc) (k : Nat) :
    (parse_atif_trajectory sanitize (some (some d)) k).events
      = ((runBSteps 0 d.steps).filter (fun e => k ≤ e.line_num)).map (maskEvent sanitize) := rfl

lemma map_step_mask (f : Str → Str) (es : List Event) :
    (es.map (maskEvent f)).map Event.step = es.map Event.step := by
  induction es with
  | nil => rfl
  | cons e rest ih => simp only [List.map_cons, ih, maskEvent_step]

lemma map_linenum_mask (f : Str → Str) (es : List Event) :
    (es.map (maskEvent f)).map Event.line_num = es.map Event.line_num := by
  induction es with
  | nil => rfl
  | cons e rest ih => simp only [List.map_cons, ih, maskEvent_line_num]

lemma eventsTokenSum_mask (f : Str → Str) (es : List Event) :
    eventsTokenSum (es.map (maskEvent f)) = eventsTokenSum es :=
  eventsTokenSum_map_of_tokens_eq (maskEvent f) es (maskEvent_tokens f)

/-- C9: step values are strictly increasing within one `ParseResult` and
continue from any supplied resume offset, for both normalizers. -/
theorem step_monotonicity_C9 :
    ∀ (sanitize : Str → Str) (lines : List ALine) (d : BDoc) (k : Nat),
      ((parse_claude_code_jsonl sanitize (some lines) k).events.Pairwise
          (fun a b => a.step < b.step)
        ∧ ∀ e ∈ (parse_claude_code_jsonl sanitize (some lines) k).events, k ≤ e.step)
      ∧ ((parse_atif_trajectory sanitize (some (some d)) k).events.Pairwise
          (fun a b => a.step < b.step)
        ∧ ∀ e ∈ (parse_atif_trajectory sanitize (some (some d)) k).events, k ≤ e.step) := by
  intro sanitize lines d k
  constructor
  · rw [parseA_events]
    have hsteps := deltaA_steps ((lines.enum).filter (fun p => k ≤ p.1)) k [] []
    constructor
    · rw [List.pairwise_map]
      simp only [maskEvent_step]
      apply List.pairwise_map.mp
      rw [hsteps]
      exact List.pairwise_lt_range' k _
    · intro e he
      rcases List.mem_map.1 he with ⟨e', he', rfl⟩
      have : e'.step ∈ (deltaA k [] [] ((lines.enum).filter (fun p => k ≤ p.1))).map Event.step :=
        List.mem_map_of_mem _ he'
      rw [hsteps] at this
      rw [maskEvent_step]
      exact (List.mem_range'_1.1 this).1
  · rw [parseB_events]
    constructor
    · rw [List.pairwise_map]
      simp only [maskEvent_step]
      apply List.pairwise_map.mp
      have hsub : List.Sublist (((runBSteps 0 d.steps).filter (fun e => k ≤ e.line_num)).map Event.step)
            ((runBSteps 0 d.steps).map Event.step) :=
        List.Sublist.map _ (List.filter_sublist _)
      apply List.Pairwise.sublist hsub
      rw [runBSteps_step_map]
      rw [List.range_eq_range']
      exact List.pairwise_lt_range' 0 _
    · intro e he
      rcases List.mem_map.1 he with ⟨e', he', rfl⟩
      have hmem := List.mem_filter.1 he'
      have heq := runBSteps_step_eq_line d.steps 0 e' hmem.1
      rw [maskEvent_step, heq]
      simpa using hmem.2

/-- C10: in format B, every event's `step` equals its `line_num` and both
equal its zero-based index in the full unfiltered event sequence;
`total_lines` is the full event count; filtering by `line_num` is the same
as filtering by `step`. -/
theorem atif_cursor_coincidence_C10 :
    ∀ (sanitize : Str → Str) (d : BDoc),
      ((parse_atif_trajectory sanitize (some (some d)) 0).events.map Event.step
          = List.range (parse_atif_trajectory sanitize (some (some d)) 0).events.length)
      ∧ ((parse_atif_trajectory sanitize (some (some d)) 0).events.map Event.line_num
          = List.range (parse_atif_trajectory sanitize (some (some d)) 0).events.length)
      ∧ (parse_atif_trajectory sanitize (some (some d)) 0).total_lines
          = (parse_atif_trajectory sanitize (some (some d)) 0).events.length
      ∧ ∀ k, (parse_atif_trajectory sanitize (some (some d)) k).events
          = (parse_atif_trajectory sanitize (some (some d)) 0).events.filter
              (fun e => k ≤ e.step) := by
  intro sanitize d
  have hfull : (runBSteps 0 d.steps).filter (fun e => (0 : Nat) ≤ e.line_num)
      = runBSteps 0 d.steps := by
    apply List.filter_eq_self.2
    intro e _
    simp
  have hev : (parse_atif_trajectory sanitize (some (some d)) 0).events
      = (runBSteps 0 d.steps).map (maskEvent sanitize) := by
    rw [parseB_events, hfull]
  refine ⟨?_, ?_, ?_, ?_⟩
  · rw [hev, map_step_mask, runBSteps_step_map]
    simp
  · rw [hev, map_linenum_mask, runBSteps_line_map]
    simp
  · rw [hev]
    simp only [parse_atif_trajectory, List.length_map]
  · intro k
    rw [parseB_events, hev]
    rw [List.filter_map]
    have hcomp : ((fun e => decide (k ≤ e.step)) ∘ maskEvent sanitize)
        = (fun e => decide (k ≤ e.step)) := by
      funext e; rfl
    rw [hcomp]
    have hcongr : (runBSteps 0 d.steps).filter (fun e => k ≤ e.step)
        = (runBSteps 0 d.steps).filter (fun e => k ≤ e.line_num) := by
      apply List.filter_congr
      intro e he
      rw [runBSteps_step_eq_line d.steps 0 e he]
    rw [hcongr]

lemma tableLookup_mem : ∀ (t : List (Str × Prices)) (m : Str) (p : Prices),
    tableLookup t m = some p → p ∈ t.map Prod.snd := by
  intro t
  induction t with
  | nil => intro m p h; simp [tableLookup] at h
  | cons kv rest ih =>
    intro m p h
    cases kv with
    | mk k v =>
      simp only [tableLookup] at h
      by_cases h2 : k = m
      · rw [if_pos h2] at h
        simp only [List.map_cons, List.mem_cons]
        left
        exact (Option.some_injective _ h).symm
      · rw [if_neg h2] at h
        simp only [List.map_cons, List.mem_cons]
        right
        exact ih m p h

lemma findSubstringKey_spec : ∀ (l : List Str),
    l.Pairwise (fun a b => b.length ≤ a.length) →
    ∀ m k, findSubstringKey l m = some k →
      k ∈ l ∧ hasSub k m = true
        ∧ ∀ k', k' ∈ l → hasSub k' m = true → k'.length ≤ k.length := by
  intro l
  induction l with
  | nil => intro _ m k h; simp [findSubstringKey] at h
  | cons x rest ih =>
    intro hsort m k h
    simp only [findSubstringKey] at h
    by_cases hx : hasSub x m = true
    · rw [if_pos hx] at h
      have hk : k = x := (Option.some_injective _ h).symm
      subst hk
      refine ⟨List.mem_cons_self _ _, hx, ?_⟩
      intro k' hk' _
      rcases List.mem_cons.1 hk' with hk' | hk'
      · rw [hk']
      · exact (List.pairwise_cons.1 hsort).1 k' hk'
    · rw [if_neg hx] at h
      have hrest := ih (List.pairwise_cons.1 hsort).2 m k h
      refine ⟨List.mem_cons_of_mem _ hrest.1, hrest.2.1, ?_⟩
      intro k' hk' hsub
      rcases List.mem_cons.1 hk' with hk' | hk'
      · exact absurd (hk' ▸ hsub) hx
      · exact hrest.2.2 k' hk' hsub

/-- C6: pricing resolution is total and pricing-derived for every model
string (including `None` and the empty string), resolving via exact key
match, then longest-substring match over the length-sorted keys, then the
gemini/sonnet/haiku family fallbacks, then the global default; the returned
cost is always computed from the resolved table entry, so `estimate_cost`
never fails.  (All resolved prices are table entries, so the cost is always
non-null; totality is inherent in the Lean model.) -/
theorem pricing_resolution_C6 :
    (∀ (model : Option Str) (events : List Event),
        ∃ p, p ∈ pricingTable.map Prod.snd ∧ resolvePrices model = p
          ∧ (estimate_cost events model).estimated_cost_usd
              = roundCents (costFormula (eventsTokenSum events) p))
    ∧ (∀ kp, kp ∈ pricingTable → resolvePrices (some kp.1) = kp.2)
    ∧ (∀ (model : Option Str) (key : Str),
        tableLookup pricingTable (lowerStr (model.getD [])) = none →
        findSubstringKey pricingKeysByLen (lowerStr (model.getD [])) = some key →
        hasSub key (lowerStr (model.getD [])) = true
          ∧ ∀ key', key' ∈ pricingKeysByLen →
              hasSub key' (lowerStr (model.getD [])) = true → key'.length ≤ key.length)
    ∧ (∀ model : Option Str,
        tableLookup pricingTable (lowerStr (model.getD [])) = none →
        findSubstringKey pricingKeysByLen (lowerStr (model.getD [])) = none →
        (hasSub ("gemini".data) (lowerStr (model.getD [])) = true →
            resolvePrices model = geminiPrices)
          ∧ (hasSub ("gemini".data) (lowerStr (model.getD [])) = false →
              hasSub ("sonnet".data) (lowerStr (model.getD [])) = true →
              resolvePrices model = sonnetPrices)
          ∧ (hasSub ("gemini".data) (lowerStr (model.getD [])) = false →
              hasSub ("sonnet".data) (lowerStr (model.getD [])) = false →
              hasSub ("haiku".data) (lowerStr (model.getD [])) = true →
              resolvePrices model = haikuPrices)
          ∧ (hasSub ("gemini".data) (lowerStr (model.getD [])) = false →
              hasSub ("sonnet".data) (lowerStr (model.getD [])) = false →
              hasSub ("haiku".data) (lowerStr (model.getD [])) = false →
              resolvePrices model = opusPrices)) := by
  have hopus : opusPrices ∈ pricingTable.map Prod.snd :=
    List.mem_map_of_mem Prod.snd (List.mem_cons_self _ _)
  have hgem : geminiPrices ∈ pricingTable.map Prod.snd := by
    apply List.mem_map.2
    exact ⟨(("gemini-3.1-pro-preview".data), geminiPrices), by simp [pricingTable], rfl⟩
  have hson : sonnetPrices ∈ pricingTable.map Prod.snd := by
    apply List.mem_map.2
    exact ⟨(("claude-sonnet-4-6".data), sonnetPrices), by simp [pricingTable], rfl⟩
  have hhai : haikuPrices ∈ pricingTable.map Prod.snd := by
    apply List.mem_map.2
    exact ⟨(("claude-haiku-4-5".data), haikuPrices), by simp [pricingTable], rfl⟩
  refine ⟨?_, ?_, ?_, ?_⟩
  · intro model events
    have hcost : (estimate_cost events model).estimated_cost_usd
        = roundCents (costFormula (eventsTokenSum events) (resolvePrices model)) := rfl
    cases htl : tableLookup pricingTable (lowerStr (model.getD [])) with
    | some p =>
      refine ⟨p, tableLookup_mem _ _ _ htl, ?_, ?_⟩
      · simp only [resolvePrices, htl]
      · rw [hcost]
        simp only [resolvePrices, htl]
    | none =>
      cases hfk : findSubstringKey pricingKeysByLen (lowerStr (model.getD [])) with
      | some key =>
        cases htl2 : tableLookup pricingTable key with
        | some p =>
          refine ⟨p, tableLookup_mem _ _ _ htl2, ?_, ?_⟩
          · simp only [resolvePrices, htl, hfk, htl2, Option.getD_some]
          · rw [hcost]
            simp only [resolvePrices, htl, hfk, htl2, Option.getD_some]
        | none =>
          refine ⟨opusPrices, hopus, ?_, ?_⟩
          · simp only [resolvePrices, htl, hfk, htl2, Option.getD_none]
          · rw [hcost]
            simp only [resolvePrices, htl, hfk, htl2, Option.getD_none]
      | none =>
        by_cases hg : hasSub ("gemini".data) (lowerStr (model.getD [])) = true
        · refine ⟨geminiPrices, hgem, ?_, ?_⟩
          · simp [resolvePrices, htl, hfk, hg]
          · rw [hcost]
            simp [resolvePrices, htl, hfk, hg]
        · by_cases hs : hasSub ("sonnet".data) (lowerStr (model.getD [])) = true
          · refine ⟨sonnetPrices, hson, ?_, ?_⟩
            · simp [resolvePrices, htl, hfk, hg, hs]
            · rw [hcost]
              simp [resolvePrices, htl, hfk, hg, hs]
          · by_cases hh : hasSub ("haiku".data) (lowerStr (model.getD [])) = true
            · refine ⟨haikuPrices, hhai, ?_, ?_⟩
              · simp [resolvePrices, htl, hfk, hg, hs, hh]
              · rw [hcost]
                simp [resolvePrices, htl, hfk, hg, hs, hh]
            · refine ⟨opusPrices, hopus, ?_, ?_⟩
              · simp [resolvePrices, htl, hfk, hg, hs, hh]
              · rw [hcost]
                simp [resolvePrices, htl, hfk, hg, hs, hh]
  · intro kp hkp
    fin_cases hkp <;> rfl
  · intro model key htl hfk
    have hsort : pricingKeysByLen.Pairwise (fun a b => b.length ≤ a.length) := by decide
    have h := findSubstringKey_spec pricingKeysByLen hsort (lowerStr (model.getD [])) key hfk
    exact ⟨h.2.1, h.2.2⟩
  · intro model htl hfk
    refine ⟨?_, ?_, ?_, ?_⟩
    · intro hg
      simp [resolvePrices, htl, hfk, hg]
    · intro hg hs
      simp [resolvePrices, htl, hfk, hg, hs]
    · intro hg hs hh
      simp [resolvePrices, htl, hfk, hg, hs, hh]
    · intro hg hs hh
      simp [resolvePrices, htl, hfk, hg, hs, hh]

/-- C7: `_extract_tokens_from_metrics` resolves nested cache-creation
sub-buckets into their sum; when no separate `input_tokens` field is
present it subtracts the (nonzero, not-larger-than-prompt) cache-read count
from `prompt_tokens`, so `input_tokens + cache_read = prompt_tokens` and
cache reads are not double-billed; a missing metrics block yields all-zero
counters (non-negativity of every counter is inherent in the `Nat` model,
matching the guarded subtraction in the source). -/
theorem metrics_token_mapping_C7 :
    (∀ (m : BMetrics) (ex : MetricsExtra) (a b : Nat),
        m.extra = some ex →
        ex.cache_creation_input_tokens = CacheCreationVal.buckets a b →
        (extractTokensFromMetrics (some m)).cache_creation = a + b)
    ∧ (∀ m : BMetrics,
        m.input_tokens = none →
        (extractTokensFromMetrics (some m)).cache_read ≠ 0 →
        (extractTokensFromMetrics (some m)).cache_read ≤ m.prompt_tokens →
        (extractTokensFromMetrics (some m)).input_tokens
            = m.prompt_tokens - (extractTokensFromMetrics (some m)).cache_read
          ∧ (extractTokensFromMetrics (some m)).input_tokens
              + (extractTokensFromMetrics (some m)).cache_read = m.prompt_tokens)
    ∧ extractTokensFromMetrics none = TokenInfo.zero := by
  refine ⟨?_, ?_, rfl⟩
  · intro m ex a b hex hcc
    simp [extractTokensFromMetrics, hex, hcc]
  · intro m hnone hcr hle
    have hcrval : (extractTokensFromMetrics (some m)).cache_read
        = (if m.cached_tokens ≠ 0 then m.cached_tokens
           else match m.extra with | some ex => ex.cache_read_input_tokens | none => 0) := rfl
    have hin : (extractTokensFromMetrics (some m)).input_tokens
        = (if (extractTokensFromMetrics (some m)).cache_read ≠ 0
              ∧ (extractTokensFromMetrics (some m)).cache_read ≤ m.prompt_tokens
           then m.prompt_tokens - (extractTokensFromMetrics (some m)).cache_read
           else m.prompt_tokens) := by
      simp only [extractTokensFromMetrics, hnone]
    rw [hin, if_pos ⟨hcr, hle⟩]
    exact ⟨rfl, by omega⟩

/-- C5: the dispatcher prefers the format-B trajectory whenever its parse
yields at least one event or a positive `total_lines`, otherwise falls back
to the format-A transcript, and returns an empty `ParseResult` when neither
file exists (the Lean model is total, so no exception can be raised). -/
theorem dispatcher_contract_C5 :
    ∀ (sanitize : Str → Str) (dir : SessionDir) (k : Nat),
      (∀ f, dir.trajectory = some f →
        ((parse_atif_trajectory sanitize (some f) k).events ≠ []
          ∨ 0 < (parse_atif_trajectory sanitize (some f) k).total_lines) →
        detect_and_parse sanitize dir k = parse_atif_trajectory sanitize (some f) k)
      ∧ (∀ lines, dir.claude_code = some lines →
          (∀ f, dir.trajectory = some f →
            (parse_atif_trajectory sanitize (some f) k).events = []
              ∧ (parse_atif_trajectory sanitize (some f) k).total_lines = 0) →
          detect_and_parse sanitize dir k = parse_claude_code_jsonl sanitize (some lines) k)
      ∧ ((∀ f, dir.trajectory = some f →
            (parse_atif_trajectory sanitize (some f) k).events = []
              ∧ (parse_atif_trajectory sanitize (some f) k).total_lines = 0) →
          dir.claude_code = none →
          detect_and_parse sanitize dir k = { events := [], total_lines := 0 }) := by
  intro sanitize dir k
  refine ⟨?_, ?_, ?_⟩
  · intro f hf hyield
    simp only [detect_and_parse, hf]
    rw [if_pos hyield]
  · intro lines hcc hempty
    cases htr : dir.trajectory with
    | none => simp only [detect_and_parse, htr, hcc]
    | some f =>
      have h := hempty f htr
      simp only [detect_and_parse, htr, hcc]
      rw [if_neg]
      intro hcon
      rcases hcon with hcon | hcon
      · exact hcon h.1
      · rw [h.2] at hcon; exact Nat.lt_irrefl 0 hcon
  · intro hempty hccnone
    cases htr : dir.trajectory with
    | none => simp only [detect_and_parse, htr, hccnone]
    | some f =>
      have h := hempty f htr
      simp only [detect_and_parse, htr, hccnone]
      rw [if_neg]
      intro hcon
      rcases hcon with hcon | hcon
      · exact hcon h.1
      · rw [h.2] at hcon; exact Nat.lt_irrefl 0 hcon

lemma categorize_bash_isBash (name : Str) (ti : ToolInput)
    (h : categorizeTool name ti = ("bash".data)) : isBashName name = true := by
  by_cases h2 : isBashName name = true
  · exact h2
  · exfalso
    simp only [categorizeTool] at h
    rw [if_neg h2] at h
    split at h
    · split at h
      · exact absurd h (by decide)
      · exact absurd h (by decide)
    · split at h
      · exact absurd h (by decide)
      · split at h
        · split at h
          · exact absurd h (by decide)
          · split at h
            · exact absurd h (by decide)
            · exact absurd h (by decide)
        · split at h
          · exact absurd h (by decide)
          · split at h
            · exact absurd h (by decide)
            · split at h
              · exact absurd h (by decide)
              · exact absurd h (by decide)

set_option maxRecDepth 100000 in
/-- C8 counterexample: a tool call classified `bash` whose command is 130
characters long but which also carries a 300-character `description` field
produces a summary of length 306 — not capped near 120 plus the `Bash: `
prefix — because the summarizer prefers the description verbatim and never
truncates it. -/
theorem bash_truncation_C8_counterexample :
    categorizeTool ("Bash".data)
        { command := some (List.replicate 130 'x'),
          description := some (List.replicate 300 'd') }
      = ("bash".data)
    ∧ 120 ≤ (getBashCmd
        { command := some (List.replicate 130 'x'),
          description := some (List.replicate 300 'd') }).length
    ∧ (summarizeTool ("Bash".data)
        { command := some (List.replicate 130 'x'),
          description := some (List.replicate 300 'd') }).length = 306
    ∧ ¬ (summarizeTool ("Bash".data)
        { command := some (List.replicate 130 'x'),
          description := some (List.replicate 300 'd') }).length ≤ 126 := by
  refine ⟨by decide, by decide, by decide, by decide⟩

/-- C8 amended: for a `bash`-classified tool call with no truthy
`description` field and a command of at least 120 characters, the summary is
exactly `Bash: ` followed by the first line of the command truncated to 120
characters (hence at most 126 characters long), and any produced detail
string is capped at 500 characters. -/
theorem bash_truncation_C8_amended :
    ∀ (name : Str) (ti : ToolInput),
      categorizeTool name ti = ("bash".data) →
      (ti.description).getD [] = [] →
      120 ≤ (getBashCmd ti).length →
      summarizeTool name ti
          = ("Bash: ".data) ++ ((getBashCmd ti).takeWhile (fun c => c ≠ '\n')).take 120
        ∧ (summarizeTool name ti).length ≤ 126
        ∧ ∀ dtl, getDetail name ti = some dtl → dtl.length ≤ 500 := by
  intro name ti hcat hdesc hlen
  have hbash := categorize_bash_isBash name ti hcat
  have hsum : summarizeTool name ti
      = ("Bash: ".data) ++ ((getBashCmd ti).takeWhile (fun c => c ≠ '\n')).take 120 := by
    simp only [summarizeTool]
    rw [if_pos hbash, hdesc]
    simp
  refine ⟨hsum, ?_, ?_⟩
  · rw [hsum, List.length_append]
    have h1 : (((getBashCmd ti).takeWhile (fun c => c ≠ '\n')).take 120).length ≤ 120 := by
      rw [List.length_take]
      exact Nat.min_le_left _ _
    have h2 : (("Bash: ".data) : Str).length = 6 := by decide
    omega
  · intro dtl hd
    simp only [getDetail] at hd
    rw [if_pos hbash] at hd
    split at hd
    · have : dtl = (getBashCmd ti).take 500 := (Option.some_injective _ hd).symm
      rw [this, List.length_take]
      exact Nat.min_le_left _ _
    · exact absurd hd (by simp)

/-- Witness for C5: a session directory with neither file yields the empty
`ParseResult`. -/
theorem dispatcher_contract_C5_witness :
    detect_and_parse (fun s => s) { trajectory := none, claude_code := none } 0
      = { events := [], total_lines := 0 } :=
  (dispatcher_contract_C5 (fun s => s) { trajectory := none, claude_code := none } 0).2.2
    (fun _f hf => nomatch hf) rfl

/-- Witness for C6: the exact-match branch resolves the opus key to its own
table entry. -/
theorem pricing_resolution_C6_witness :
    resolvePrices (some ("claude-opus-4-6".data)) = opusPrices :=
  pricing_resolution_C6.2.1 (("claude-opus-4-6".data), opusPrices)
    (List.mem_cons_self _ _)

/-- Witness for C7: a metrics block with `prompt_tokens = 150` and
`cached_tokens = 50` and no separate `input_tokens` field maps to
`input_tokens + cache_read = 150`. -/
theorem metrics_token_mapping_C7_witness :
    (extractTokensFromMetrics (some { prompt_tokens := 150, cached_tokens := 50 })).input_tokens
        + (extractTokensFromMetrics (some { prompt_tokens := 150, cached_tokens := 50 })).cache_read
      = 150 :=
  (metrics_token_mapping_C7.2.1 { prompt_tokens := 150, cached_tokens := 50 }
    rfl (by decide) (by decide)).2

set_option maxRecDepth 100000 in
/-- Witness for C8 (amended): a 120-character command with no description
yields a summary of at most 126 characters. -/
theorem bash_truncation_C8_witness :
    (summarizeTool ("Bash".data) { command := some (List.replicate 120 'y') }).length ≤ 126 :=
  (bash_truncation_C8_amended ("Bash".data) { command := some (List.replicate 120 'y') }
    (by decide) (by decide) (by decide)).2.1

/-- Witness for C9: the step sequence of a one-line parse resumed at offset 2
is strictly increasing. -/
theorem step_monotonicity_C9_witness :
    (parse_claude_code_jsonl (fun s => s) (some [ALine.invalid]) 2).events.Pairwise
      (fun a b => a.step < b.step) :=
  (step_monotonicity_C9 (fun s => s) [ALine.invalid] { steps := [] } 2).1.1

/-- Modelled from the spec's words for the C3 comparison (§4.2 step 4 as the
claim reads it): all content blocks of every physical line sharing the
message id. -/
def specAllFragmentsBlocks (lines : List ALine) (m : Str) : List ABlock :=
  lines.foldr
    (fun l acc =>
      match l with
      | .assistant msg => if msg.id = m then msg.content ++ acc else acc
      | _ => acc) []

/-- Modelled from the spec's words for the C3 comparison: the claimed
corrected output count `max(reported, estimate over ALL fragments of the
call)`. -/
def specClaimedOutput (lines : List ALine) (m : Str) (reported : Nat) : Nat :=
  max reported (estimateOutputTokensFromContent (specAllFragmentsBlocks lines m))

set_option maxRecDepth 1000000 in
/-- C3 counterexample: a call whose response is split across two physical
lines (a 2-character thinking fragment, then a 700-character text fragment,
reported output 3) gets output_tokens 3 — the estimate is computed from the
blocks accumulated up to the FIRST line carrying the id only — while the
claim demands `max(reported, estimate over all fragments) = 200`. -/
theorem output_correction_C3_counterexample :
    (((parse_claude_code_jsonl (fun s => s)
        (some [ALine.assistant
                { id := ("m1".data), usage := { output_tokens := 3 },
                  content := [ABlock.thinking ("ab".data)] },
               ALine.assistant
                { id := ("m1".data), usage := { output_tokens := 3 },
                  content := [ABlock.text (List.replicate 700 'a')] }]) 0).events.filterMap
        Event.tokens).map TokenInfo.output_tokens = [3])
    ∧ specClaimedOutput
        [ALine.assistant
          { id := ("m1".data), usage := { output_tokens := 3 },
            content := [ABlock.thinking ("ab".data)] },
         ALine.assistant
          { id := ("m1".data), usage := { output_tokens := 3 },
            content := [ABlock.text (List.replicate 700 'a')] }] ("m1".data) 3 = 200
    ∧ (3 : Nat) ≠ 200 := by
  refine ⟨by decide, by decide, by decide⟩

/-- C3 amended: the token-carrying decision attaches
`max(reported, estimated)` where, in format A, the estimate is computed from
the content blocks accumulated up to and including the current (first
unseen) physical line of the call — the prior accumulator entry plus this
line's blocks, not the fragments of later lines — and, in format B, the
estimate is the visible-content estimate plus the reported
`thoughts_tokens`, exactly as the claim states. -/
theorem output_correction_C3_amended :
    (∀ (seen : List Str) (acc : AccDict) (msg : AMessage),
        msg.id ≠ [] → msg.id ∉ seen →
        aTokenInfo seen (accExtend acc msg.id msg.content) msg
          = some { extractTokens msg.usage with
                   output_tokens := max (msg.usage).output_tokens
                     (estimateOutputTokensFromContent
                       (((accLookup acc msg.id).getD []) ++ msg.content)) })
    ∧ (∀ s : BStep, s.source = ("agent".data) →
        bStepTokenInfo s
          = { extractTokensFromMetrics s.metrics with
              output_tokens := max (extractTokensFromMetrics s.metrics).output_tokens
                (estimateTokensFromChars (bVisibleChars s) + bThoughts s) }) := by
  constructor
  · intro seen acc msg hid hseen
    unfold aTokenInfo
    rw [if_neg (show ¬(msg.id ≠ [] ∧ msg.id ∈ seen) from fun hh => hseen hh.2)]
    rw [if_pos hid]
    rw [accLookup_extend_self]
    simp only [Option.getD_some]
    have hout : (extractTokens msg.usage).output_tokens = (msg.usage).output_tokens := rfl
    by_cases hgt : estimateOutputTokensFromContent
        ((accLookup acc msg.id).getD [] ++ msg.content) > (extractTokens msg.usage).output_tokens
    · rw [if_pos hgt]
      rw [show max (msg.usage).output_tokens (estimateOutputTokensFromContent
            ((accLookup acc msg.id).getD [] ++ msg.content))
          = estimateOutputTokensFromContent ((accLookup acc msg.id).getD [] ++ msg.content) by
        rw [← hout]; exact Nat.max_eq_right (Nat.le_of_lt hgt)]
    · rw [if_neg hgt]
      rw [show max (msg.usage).output_tokens (estimateOutputTokensFromContent
            ((accLookup acc msg.id).getD [] ++ msg.content))
          = (msg.usage).output_tokens by
        rw [← hout]; exact Nat.max_eq_left (Nat.le_of_not_lt hgt)]
      rw [← hout]
  · intro s hsrc
    unfold bStepTokenInfo bCorrect
    rw [if_pos hsrc]
    by_cases hgt : estimateTokensFromChars (bVisibleChars s) + bThoughts s
        > (extractTokensFromMetrics s.metrics).output_tokens
    · rw [if_pos hgt, Nat.max_eq_right (Nat.le_of_lt hgt)]
    · rw [if_neg hgt, Nat.max_eq_left (Nat.le_of_not_lt hgt)]

/-- Witness for C3 (amended): a single-line call with reported output 5 and
no content keeps output 5. -/
theorem output_correction_C3_witness :
    aTokenInfo [] (accExtend [] ("x".data) [])
        { id := ("x".data), usage := { output_tokens := 5 } }
      = some { output_tokens := 5 } := by
  have h := output_correction_C3_amended.1 [] []
    { id := ("x".data), usage := { output_tokens := 5 } } (by decide) (by simp)
  rw [h]
  decide

/-- C4 counterexample: a format-A assistant line with nonzero usage but an
empty content list produces NO event at all — no placeholder is synthesized
in format A, so its 5 input tokens are silently lost, contrary to the
claim's "in either format". -/
theorem no_token_loss_C4_counterexample :
    (parse_claude_code_jsonl (fun s => s)
        (some [ALine.assistant
                { id := ("m9".data), usage := { input_tokens := 5 }, content := [] }]) 0).events
      = []
    ∧ eventsTokenSum (parse_claude_code_jsonl (fun s => s)
        (some [ALine.assistant
                { id := ("m9".data), usage := { input_tokens := 5 }, content := [] }]) 0).events
      = TokenInfo.zero
    ∧ (extractTokens { input_tokens := 5 }).input_tokens = 5 := by
  refine ⟨by decide, by decide, by decide⟩

/-- C4 amended (format B only): the summed tokens over all events of a full
format-B parse equal the summed per-step token accounting of the document,
and a step with no visible content (empty stripped message and reasoning,
no tool calls, no results) whose token dictionary is non-null synthesizes
exactly one placeholder event carrying that token info. -/
theorem no_token_loss_C4_amended :
    (∀ (sanitize : Str → Str) (d : BDoc),
        eventsTokenSum (parse_atif_trajectory sanitize (some (some d)) 0).events
          = stepsTokenSum d.steps)
    ∧ (∀ (idx : Nat) (s : BStep) (ti : TokenInfo),
        pyStrip s.message = [] → pyStrip s.reasoning_content = [] →
        s.tool_calls = [] → s.results = [] →
        bTokenDict s = some ti →
        emitBStep idx s
          = [{ step := idx, timestamp := s.timestamp,
               source := if s.source = ("agent".data) ∨ s.source = ("user".data)
                   ∨ s.source = ("system".data) then s.source else ("agent".data),
               event_type := if s.source = ("agent".data) then ("text".data)
                   else ("other".data),
               tool_name := none,
               summary := ("Model turn (no visible content)".data),
               detail := none, tokens := some ti, line_num := idx, tool_id := none }]) := by
  constructor
  · intro sanitize d
    have hfull : (runBSteps 0 d.steps).filter (fun e => (0 : Nat) ≤ e.line_num)
        = runBSteps 0 d.steps := by
      apply List.filter_eq_self.2
      intro e _
      simp
    rw [parseB_events, hfull, eventsTokenSum_mask, runBSteps_sum]
  · intro idx s ti hm hr hc hres htok
    simp only [emitBStep, hm, hr, hc, hres]
    have h1 : bThinkingEvents idx s.timestamp [] (bTokenDict s) = ([], idx, bTokenDict s) := by
      simp [bThinkingEvents]
    have h2 : ∀ j t, bMessageEvents j s.timestamp [] (decide (([] : List BCall) ≠ [])) t
        = ([], j, t) := by
      intro j t; simp [bMessageEvents]
    have h3 : ∀ j t, bToolCallEvents s.timestamp j t ([] : List BCall) = ([], j, t) := by
      intro j t; rfl
    have h4 : ∀ j, bResultEvents s.timestamp s.tool_result_is_error j ([] : List BResult)
        = ([], j) := by
      intro j; rfl
    have h5 : ∀ j so, bSimpleEvent j s.timestamp so so [] (bTokenDict s)
        = ([], j, bTokenDict s) := by
      intro j so; simp [bSimpleEvent]
    by_cases hsrc : s.source = ("agent".data)
    · rw [if_pos hsrc]
      simp only [h1, h2, h3, h4]
      rw [htok]
      simp [bPlaceholder, hsrc]
    · rw [if_neg hsrc]
      by_cases hu : s.source = ("user".data)
      · rw [if_pos hu]
        simp only [bSimpleEvent, if_neg (show ¬(([] : Str) ≠ []) from by simp)]
        rw [htok]
        simp [bPlaceholder, hsrc, hu]
      · rw [if_neg hu]
        by_cases hsy : s.source = ("system".data)
        · rw [if_pos hsy]
          simp only [bSimpleEvent, if_neg (show ¬(([] : Str) ≠ []) from by simp)]
          rw [htok]
          simp [bPlaceholder, hsrc, hu, hsy]
        · rw [if_neg hsy]
          simp only [bSimpleEvent, if_neg (show ¬(([] : Str) ≠ []) from by simp)]
          rw [htok]
          simp [bPlaceholder, hsrc, hu, hsy]

/-- Witness for C4 (amended): an agent step carrying only
`prompt_tokens = 7` synthesizes exactly the placeholder event. -/
theorem no_token_loss_C4_witness :
    emitBStep 0 { source := ("agent".data), metrics := some { prompt_tokens := 7 } }
      = [{ step := 0, timestamp := none, source := ("agent".data),
           event_type := ("text".data), tool_name := none,
           summary := ("Model turn (no visible content)".data),
           detail := none, tokens := some { input_tokens := 7 }, line_num := 0,
           tool_id := none }] := by
  have h := no_token_loss_C4_amended.2 0
    { source := ("agent".data), metrics := some { prompt_tokens := 7 } }
    { input_tokens := 7 } rfl rfl rfl rfl (by decide)
  rw [h]
  decide

/-- Does line `i` of the stream carry an assistant message with id `m`
(statement instrument for per-call attribution counting)? -/
def lineHasId (lines : List ALine) (i : Nat) (m : Str) : Bool :=
  match lines[i]? with
  | some (ALine.assistant msg) => msg.id = m
  | _ => false

/-- Number of events that carry non-null tokens and were produced by a line
of the logical call with message id `m` (statement instrument). -/
def tokenEventCount (lines : List ALine) (m : Str) (es : List Event) : Nat :=
  (es.filter (fun e => (e.tokens).isSome && lineHasId lines e.line_num m)).length

lemma tokenEventCount_append (lines : List ALine) (m : Str) (a b : List Event) :
    tokenEventCount lines m (a ++ b) = tokenEventCount lines m a + tokenEventCount lines m b := by
  simp [tokenEventCount, List.filter_append]

lemma tokenEventCount_mask (lines : List ALine) (m : Str) (f : Str → Str) (es : List Event) :
    tokenEventCount lines m (es.map (maskEvent f)) = tokenEventCount lines m es := by
  unfold tokenEventCount
  rw [List.filter_map]
  rw [show ((fun e => (e.tokens).isSome && lineHasId lines e.line_num m) ∘ maskEvent f)
      = (fun e => (e.tokens).isSome && lineHasId lines e.line_num m) from by funext e; rfl]
  rw [List.length_map]

lemma tokenEventCount_line_false (lines : List ALine) (m : Str) (i : Nat) (es : List Event)
    (hid : lineHasId lines i m = false) (hln : ∀ e ∈ es, e.line_num = i) :
    tokenEventCount lines m es = 0 := by
  simp only [tokenEventCount, List.length_eq_zero]
  rw [List.filter_eq_nil_iff]
  intro e he
  rw [hln e he, hid]
  simp

lemma tokenEventCount_line_true (lines : List ALine) (m : Str) (i : Nat) (es : List Event)
    (hid : lineHasId lines i m = true) (hln : ∀ e ∈ es, e.line_num = i) :
    tokenEventCount lines m es = es.countP (fun e => (e.tokens).isSome) := by
  unfold tokenEventCount
  rw [List.countP_eq_length_filter]
  congr 1
  apply List.filter_congr
  intro e he
  rw [hln e he, hid]
  simp

lemma aLineSeen_mono (seen : List Str) (l : ALine) (m : Str) (h : m ∈ seen) :
    m ∈ aLineSeen seen l := by
  cases l with
  | assistant msg =>
    simp only [aLineSeen]
    split
    · exact List.mem_cons_of_mem _ h
    · exact h
  | invalid => exact h
  | otherLine => exact h
  | systemInit sid mdl => exact h
  | user blocks stdout => exact h

lemma aTokenInfo_not_seen_isSome (seen : List Str) (acc : AccDict) (msg : AMessage)
    (h : msg.id ∉ seen) : (aTokenInfo seen acc msg).isSome = true := by
  unfold aTokenInfo
  rw [if_neg (show ¬(msg.id ≠ [] ∧ msg.id ∈ seen) from fun hh => h hh.2)]
  split <;> rfl

lemma mem_enumFrom_getElem : ∀ (l : List ALine) (n : Nat) (p : Nat × ALine),
    p ∈ List.enumFrom n l → n ≤ p.1 ∧ l[p.1 - n]? = some p.2 := by
  intro l
  induction l with
  | nil => intro n p h; simp [List.enumFrom] at h
  | cons x xs ih =>
    intro n p h
    simp only [List.enumFrom, List.mem_cons] at h
    rcases h with h | h
    · rw [h]
      simp
    · rcases ih (n + 1) p h with ⟨h1, h2⟩
      constructor
      · omega
      · rw [show p.1 - n = (p.1 - (n + 1)) + 1 by omega]
        rw [List.getElem?_cons_succ]
        exact h2

lemma enum_consistency (lines : List ALine) :
    ∀ p ∈ lines.enum, lines[p.1]? = some p.2 := by
  intro p hp
  have h := mem_enumFrom_getElem lines 0 p hp
  simpa using h.2

lemma enumFrom_append' : ∀ (l1 l2 : List ALine) (n : Nat),
    List.enumFrom n (l1 ++ l2) = List.enumFrom n l1 ++ List.enumFrom (n + l1.length) l2 := by
  intro l1
  induction l1 with
  | nil => intro l2 n; simp [List.enumFrom]
  | cons x xs ih =>
    intro l2 n
    simp only [List.cons_append, List.enumFrom, List.length_cons]
    rw [List.append_eq]
    rw [ih l2 (n + 1)]
    rw [show n + 1 + xs.length = n + (xs.length + 1) from by omega]

lemma enum_split (lines : List ALine) (i : Nat) (l : ALine) (h : lines[i]? = some l) :
    lines.enum = List.enumFrom 0 (lines.take i)
      ++ (i, l) :: List.enumFrom (i + 1) (lines.drop (i + 1)) := by
  rcases List.getElem?_eq_some.1 h with ⟨hlt, hget⟩
  have hsplit : lines = lines.take i ++ (l :: lines.drop (i + 1)) := by
    conv_lhs => rw [← List.take_append_drop i lines]
    congr 1
    rw [List.drop_eq_getElem_cons hlt, hget]
  have htl : (lines.take i).length = i := by
    rw [List.length_take]
    omega
  conv_lhs => rw [show lines.enum = List.enumFrom 0 lines from rfl, hsplit]
  rw [enumFrom_append', htl]
  rw [Nat.zero_add]
  rfl

lemma mem_idsOfPairs : ∀ (L : List (Nat × ALine)) (m : Str), m ∈ idsOfPairs L →
    ∃ p, p ∈ L ∧ ∃ msg, p.2 = ALine.assistant msg ∧ msg.id = m := by
  intro L
  induction L with
  | nil => intro m h; simp [idsOfPairs] at h
  | cons p rest ih =>
    intro m h
    simp only [idsOfPairs, List.mem_append] at h
    rcases h with h | h
    · refine ⟨p, List.mem_cons_self _ _, ?_⟩
      cases hp : p.2 with
      | assistant msg =>
        rw [hp] at h
        simp only [aLineIds] at h
        split at h
        · simp only [List.mem_singleton] at h
          exact ⟨msg, rfl, h.symm⟩
        · simp at h
      | invalid => rw [hp] at h; simp [aLineIds] at h
      | otherLine => rw [hp] at h; simp [aLineIds] at h
      | systemInit sid mdl => rw [hp] at h; simp [aLineIds] at h
      | user blocks stdout => rw [hp] at h; simp [aLineIds] at h
    · rcases ih m h with ⟨q, hq, hrest⟩
      exact ⟨q, List.mem_cons_of_mem _ hq, hrest⟩

lemma deltaA_linenum : ∀ (L : List (Nat × ALine)) (s : Nat) (seen : List Str) (acc : AccDict)
    (e : Event), e ∈ deltaA s seen acc L → ∃ p, p ∈ L ∧ e.line_num = p.1 := by
  intro L
  induction L with
  | nil => intro s seen acc e h; simp [deltaA_nil] at h
  | cons p rest ih =>
    rcases p with ⟨i, l⟩
    intro s seen acc e h
    rw [deltaA_cons] at h
    rcases List.mem_append.1 h with h | h
    · exact ⟨(i, l), List.mem_cons_self _ _, aLineEvents_line s seen acc i l e h⟩
    · rcases ih _ _ _ e h with ⟨q, hq, hrest⟩
      exact ⟨q, List.mem_cons_of_mem _ hq, hrest⟩

lemma lineHasId_true_elim (lines : List ALine) (i : Nat) (m : Str) (l : ALine)
    (hcons : lines[i]? = some l) (hid : lineHasId lines i m = true) :
    ∃ msg, l = ALine.assistant msg ∧ msg.id = m := by
  unfold lineHasId at hid
  rw [hcons] at hid
  cases l with
  | assistant msg =>
    refine ⟨msg, rfl, ?_⟩
    simpa using hid
  | invalid => simp at hid
  | otherLine => simp at hid
  | systemInit sid mdl => simp at hid
  | user blocks stdout => simp at hid

lemma lineHasId_false_elim (lines : List ALine) (i : Nat) (m : Str) (msg : AMessage)
    (hcons : lines[i]? = some (ALine.assistant msg)) (hid : lineHasId lines i m = false) :
    msg.id ≠ m := by
  unfold lineHasId at hid
  rw [hcons] at hid
  simpa using hid

lemma aLineSeen_not_mem (seen : List Str) (l : ALine) (m : Str) (hm : m ∉ seen)
    (hl : ∀ msg, l = ALine.assistant msg → msg.id ≠ m) : m ∉ aLineSeen seen l := by
  cases l with
  | assistant msg =>
    rw [mem_aLineSeen_other seen msg m (fun he => hl msg rfl (he ▸ rfl))]
    exact hm
  | invalid => exact hm
  | otherLine => exact hm
  | systemInit sid mdl => exact hm
  | user blocks stdout => exact hm

lemma ite_one_zero_le_one (P : Prop) [Decidable P] : (if P then 1 else 0) ≤ 1 := by
  split <;> omega

lemma countTok_seen : ∀ (L : List (Nat × ALine)) (lines : List ALine) (m : Str) (st : AState),
    m ≠ [] → (∀ p ∈ L, lines[p.1]? = some p.2) → m ∈ st.seen →
    tokenEventCount lines m (runA st L).events = tokenEventCount lines m st.events := by
  intro L
  induction L with
  | nil => intro lines m st _ _ _; rfl
  | cons p rest ih =>
    rcases p with ⟨i, l⟩
    intro lines m st hm hcons hmem
    have hconsl : lines[i]? = some l := hcons (i, l) (List.mem_cons_self _ _)
    have hconsr : ∀ q ∈ rest, lines[q.1]? = some q.2 :=
      fun q hq => hcons q (List.mem_cons_of_mem _ hq)
    show tokenEventCount lines m (runA (processALine st i l) rest).events = _
    rw [ih lines m (processALine st i l) hm hconsr (aLineSeen_mono st.seen l m hmem)]
    show tokenEventCount lines m
        (st.events ++ (aLineEvents st.step st.seen st.acc i l).1) = _
    rw [tokenEventCount_append]
    have hline : tokenEventCount lines m (aLineEvents st.step st.seen st.acc i l).1 = 0 := by
      cases hid : lineHasId lines i m with
      | false => exact tokenEventCount_line_false lines m i _ hid (aLineEvents_line _ _ _ _ _)
      | true =>
        rcases lineHasId_true_elim lines i m l hconsl hid with ⟨msg, rfl, hmsg⟩
        rw [tokenEventCount_line_true lines m i _ hid (aLineEvents_line _ _ _ _ _)]
        have htok : ∀ acc2, aTokenInfo st.seen acc2 msg = none := by
          intro acc2
          unfold aTokenInfo
          rw [if_pos ⟨(show msg.id ≠ [] from by rw [hmsg]; exact hm),
                      (show msg.id ∈ st.seen from by rw [hmsg]; exact hmem)⟩]
        simp only [aLineEvents, htok]
        rw [emitABlocks_count]
        simp
    rw [hline]
    omega

lemma countTok_le : ∀ (L : List (Nat × ALine)) (lines : List ALine) (m : Str) (st : AState),
    m ≠ [] → (∀ p ∈ L, lines[p.1]? = some p.2) →
    tokenEventCount lines m (runA st L).events
      ≤ tokenEventCount lines m st.events + (if m ∈ st.seen then 0 else 1) := by
  intro L
  induction L with
  | nil =>
    intro lines m st _ _
    show tokenEventCount lines m st.events ≤ _
    split <;> omega
  | cons p rest ih =>
    rcases p with ⟨i, l⟩
    intro lines m st hm hcons
    have hconsl : lines[i]? = some l := hcons (i, l) (List.mem_cons_self _ _)
    have hconsr : ∀ q ∈ rest, lines[q.1]? = some q.2 :=
      fun q hq => hcons q (List.mem_cons_of_mem _ hq)
    by_cases hmem : m ∈ st.seen
    · rw [if_pos hmem]
      rw [countTok_seen ((i, l) :: rest) lines m st hm hcons hmem]
      omega
    · rw [if_neg hmem]
      show tokenEventCount lines m (runA (processALine st i l) rest).events ≤ _
      have hle := ih lines m (processALine st i l) hm hconsr
      have hev : tokenEventCount lines m (processALine st i l).events
          = tokenEventCount lines m st.events
            + tokenEventCount lines m (aLineEvents st.step st.seen st.acc i l).1 :=
        tokenEventCount_append lines m st.events _
      cases hid : lineHasId lines i m with
      | false =>
        have hline0 : tokenEventCount lines m (aLineEvents st.step st.seen st.acc i l).1 = 0 :=
          tokenEventCount_line_false lines m i _ hid (aLineEvents_line _ _ _ _ _)
        have hmem' : m ∉ (processALine st i l).seen := by
          show m ∉ aLineSeen st.seen l
          apply aLineSeen_not_mem st.seen l m hmem
          intro msg hlmsg
          exact lineHasId_false_elim lines i m msg (hlmsg ▸ hconsl) hid
        rw [if_neg hmem'] at hle
        rw [hev, hline0] at hle
        omega
      | true =>
        rcases lineHasId_true_elim lines i m l hconsl hid with ⟨msg, rfl, hmsg⟩
        have hline1 : tokenEventCount lines m
            (aLineEvents st.step st.seen st.acc i (ALine.assistant msg)).1 ≤ 1 := by
          rw [tokenEventCount_line_true lines m i _ hid (aLineEvents_line _ _ _ _ _)]
          simp only [aLineEvents]
          rw [emitABlocks_count]
          exact ite_one_zero_le_one _
        have hmem' : m ∈ (processALine st i (ALine.assistant msg)).seen := by
          show m ∈ aLineSeen st.seen (ALine.assistant msg)
          rw [← hmsg]
          exact mem_aLineSeen_self st.seen msg (by rw [hmsg]; exact hm)
        rw [if_pos hmem'] at hle
        rw [hev] at hle
        omega

lemma countTok_first (post : List (Nat × ALine)) (lines : List ALine) (m : Str)
    (st : AState) (i : Nat) (msg : AMessage)
    (hm : m ≠ []) (hcons : lines[i]? = some (ALine.assistant msg)) (hmsg : msg.id = m)
    (hmem : m ∉ st.seen) (hrec : msg.content.any isRecognizedA = true)
    (hconsp : ∀ q ∈ post, lines[q.1]? = some q.2) :
    tokenEventCount lines m (runA st ((i, ALine.assistant msg) :: post)).events
      = tokenEventCount lines m st.events + 1 := by
  show tokenEventCount lines m (runA (processALine st i (ALine.assistant msg)) post).events = _
  have hid : lineHasId lines i m = true := by
    unfold lineHasId
    rw [hcons]
    simp [hmsg]
  have hmem' : m ∈ (processALine st i (ALine.assistant msg)).seen := by
    show m ∈ aLineSeen st.seen (ALine.assistant msg)
    rw [← hmsg]
    exact mem_aLineSeen_self st.seen msg (by rw [hmsg]; exact hm)
  rw [countTok_seen post lines m _ hm hconsp hmem']
  show tokenEventCount lines m
      (st.events ++ (aLineEvents st.step st.seen st.acc i (ALine.assistant msg)).1) = _
  rw [tokenEventCount_append]
  congr 1
  rw [tokenEventCount_line_true lines m i _ hid (aLineEvents_line _ _ _ _ _)]
  simp only [aLineEvents]
  rw [emitABlocks_count]
  rw [if_pos]
  constructor
  · apply aTokenInfo_not_seen_isSome
    rw [hmsg]
    exact hmem
  · exact hrec

lemma kept_zero (lines : List ALine) :
    (lines.enum).filter (fun p => (0 : Nat) ≤ p.1) = lines.enum :=
  List.filter_eq_self.2 (fun a _ => by simp)

lemma parseA_events_zero (sanitize : Str → Str) (lines : List ALine) :
    (parse_claude_code_jsonl sanitize (some lines) 0).events
      = ((runA (initAState 0) lines.enum).events).map (maskEvent sanitize) := by
  simp only [parse_claude_code_jsonl, kept_zero]

set_option maxRecDepth 100000 in
/-- C2 amended: in format A, at most one Event of a logical call (a nonempty
message id) carries non-null tokens; exactly one when the first physical
line bearing that id contains at least one recognized content fragment; and
the dedup scenario holds as stated — two lines sharing id `m1`, each
reporting `input_tokens=100`, yield total input 100 with exactly one
token-carrying Event. -/
theorem single_attribution_C2_amended :
    (∀ (sanitize : Str → Str) (lines : List ALine) (m : Str), m ≠ [] →
        tokenEventCount lines m (parse_claude_code_jsonl sanitize (some lines) 0).events ≤ 1)
    ∧ (∀ (sanitize : Str → Str) (lines : List ALine) (m : Str) (i : Nat) (msg : AMessage),
        m ≠ [] → lines[i]? = some (ALine.assistant msg) → msg.id = m →
        (∀ j, j < i → lineHasId lines j m = false) →
        msg.content.any isRecognizedA = true →
        tokenEventCount lines m (parse_claude_code_jsonl sanitize (some lines) 0).events = 1)
    ∧ ((eventsTokenSum (parse_claude_code_jsonl (fun s => s)
          (some [ALine.assistant
                  { id := ("m1".data), usage := { input_tokens := 100 },
                    content := [ABlock.thinking ("hmm".data)] },
                 ALine.assistant
                  { id := ("m1".data), usage := { input_tokens := 100 },
                    content := [ABlock.tool_use ("Bash".data)
                      { command := some ("ls".data) } ("t1".data)] }]) 0).events).input_tokens
          = 100
       ∧ (parse_claude_code_jsonl (fun s => s)
          (some [ALine.assistant
                  { id := ("m1".data), usage := { input_tokens := 100 },
                    content := [ABlock.thinking ("hmm".data)] },
                 ALine.assistant
                  { id := ("m1".data), usage := { input_tokens := 100 },
                    content := [ABlock.tool_use ("Bash".data)
                      { command := some ("ls".data) } ("t1".data)] }]) 0).events.countP
            (fun e => (e.tokens).isSome) = 1) := by
  refine ⟨?_, ?_, by decide, by decide⟩
  · intro sanitize lines m hm
    rw [parseA_events_zero, tokenEventCount_mask]
    have h := countTok_le lines.enum lines m (initAState 0) hm (enum_consistency lines)
    have hinit : tokenEventCount lines m (initAState 0).events = 0 := rfl
    have hseen : (if m ∈ (initAState 0).seen then 0 else 1) = 1 := by simp [initAState]
    rw [hinit, hseen] at h
    omega
  · intro sanitize lines m i msg hm hcons hmsg hfirst hrec
    rw [parseA_events_zero, tokenEventCount_mask]
    have hsplit := enum_split lines i (ALine.assistant msg) hcons
    have hpre_idx : ∀ p, p ∈ List.enumFrom 0 (lines.take i) →
        p.1 < i ∧ lines[p.1]? = some p.2 := by
      intro p hp
      have hb := mem_enumFrom_getElem (lines.take i) 0 p hp
      have h2 : (lines.take i)[p.1]? = some p.2 := by simpa using hb.2
      rcases List.getElem?_eq_some.1 h2 with ⟨hlt, _⟩
      have hmin : (lines.take i).length = min i lines.length := List.length_take i lines
      rw [hmin] at hlt
      have hidx : p.1 < i := by omega
      exact ⟨hidx, by rw [← List.getElem?_take_of_lt hidx]; exact h2⟩
    rw [hsplit, runA_append]
    have hconsall := enum_consistency lines
    rw [hsplit] at hconsall
    have hconsp : ∀ q ∈ List.enumFrom (i + 1) (lines.drop (i + 1)),
        lines[q.1]? = some q.2 := fun q hq =>
      hconsall q (List.mem_append_right _ (List.mem_cons_of_mem _ hq))
    have hnotseen : m ∉ (runA (initAState 0) (List.enumFrom 0 (lines.take i))).seen := by
      intro hmem
      rcases runA_seen_subset (List.enumFrom 0 (lines.take i)) (initAState 0) m hmem
        with h0 | h0
      · simp [initAState] at h0
      · rcases mem_idsOfPairs _ m h0 with ⟨p, hp, msg', hp2, hpid⟩
        rcases hpre_idx p hp with ⟨hidx, hlineget⟩
        have htrue : lineHasId lines p.1 m = true := by
          unfold lineHasId
          rw [hlineget, hp2]
          simp [hpid]
        rw [hfirst p.1 hidx] at htrue
        exact Bool.false_ne_true htrue
    have hzero : tokenEventCount lines m
        (runA (initAState 0) (List.enumFrom 0 (lines.take i))).events = 0 := by
      have hev : (runA (initAState 0) (List.enumFrom 0 (lines.take i))).events
          = deltaA 0 [] [] (List.enumFrom 0 (lines.take i)) := by
        rw [runA_events]
        rfl
      rw [hev]
      unfold tokenEventCount
      rw [List.length_eq_zero, List.filter_eq_nil_iff]
      intro e he
      rcases deltaA_linenum _ 0 [] [] e he with ⟨p, hp, hln⟩
      rcases hpre_idx p hp with ⟨hidx, _⟩
      rw [hln, hfirst p.1 hidx]
      simp
    have hfin := countTok_first (List.enumFrom (i + 1) (lines.drop (i + 1))) lines m
      (runA (initAState 0) (List.enumFrom 0 (lines.take i))) i msg
      hm hcons hmsg hnotseen hrec hconsp
    rw [hzero] at hfin
    exact hfin

/-- Witness for C2 (amended): a single-line call whose line has one
recognized fragment yields exactly one token-carrying event. -/
theorem single_attribution_C2_witness :
    tokenEventCount
        [ALine.assistant
          { id := ("w".data), usage := { input_tokens := 1 },
            content := [ABlock.thinking ("z".data)] }]
        ("w".data)
        (parse_claude_code_jsonl (fun s => s)
          (some [ALine.assistant
            { id := ("w".data), usage := { input_tokens := 1 },
              content := [ABlock.thinking ("z".data)] }]) 0).events = 1 :=
  single_attribution_C2_amended.2.1 (fun s => s)
    [ALine.assistant
      { id := ("w".data), usage := { input_tokens := 1 },
        content := [ABlock.thinking ("z".data)] }]
    ("w".data) 0
    { id := ("w".data), usage := { input_tokens := 1 },
      content := [ABlock.thinking ("z".data)] }
    (by decide) rfl rfl (fun j hj => absurd hj (Nat.not_lt_zero j)) (by decide)

lemma runA_step : ∀ (L : List (Nat × ALine)) (st : AState),
    (runA st L).step = st.step + (deltaA st.step st.seen st.acc L).length := by
  intro L
  induction L with
  | nil => intro st; simp [runA, deltaA_nil]
  | cons p rest ih =>
    rcases p with ⟨i, l⟩
    intro st
    show (runA (processALine st i l) rest).step = _
    rw [ih (processALine st i l)]
    rw [deltaA_cons]
    have hstep : (processALine st i l).step = (aLineEvents st.step st.seen st.acc i l).2 := rfl
    rw [hstep, aLineEvents_snd]
    have hseen : (processALine st i l).seen = aLineSeen st.seen l := rfl
    have hacc : (processALine st i l).acc = aLineAcc st.acc l := rfl
    rw [hseen, hacc]
    rw [List.length_append]
    omega

/-- All non-empty message ids of a list of lines. -/
def idsOfLines : List ALine → List Str
  | [] => []
  | l :: rest => aLineIds l ++ idsOfLines rest

lemma idsOfPairs_enumFrom : ∀ (ls : List ALine) (n : Nat),
    idsOfPairs (List.enumFrom n ls) = idsOfLines ls := by
  intro ls
  induction ls with
  | nil => intro n; rfl
  | cons l rest ih =>
    intro n
    show aLineIds l ++ idsOfPairs (List.enumFrom (n + 1) rest) = _
    rw [ih (n + 1)]
    rfl

lemma enum_take_drop (lines : List ALine) (k : Nat) (hk : k ≤ lines.length) :
    lines.enum = List.enumFrom 0 (lines.take k) ++ List.enumFrom k (lines.drop k) := by
  have htl : (lines.take k).length = k := by
    rw [List.length_take]
    omega
  conv_lhs =>
    rw [show lines.enum = List.enumFrom 0 lines from rfl, ← List.take_append_drop k lines]
  rw [enumFrom_append', htl, Nat.zero_add]

lemma kept_filter (lines : List ALine) (k : Nat) (hk : k ≤ lines.length) :
    (lines.enum).filter (fun p => k ≤ p.1) = List.enumFrom k (lines.drop k) := by
  rw [enum_take_drop lines k hk, List.filter_append]
  have h1 : (List.enumFrom 0 (lines.take k)).filter (fun p => k ≤ p.1) = [] := by
    rw [List.filter_eq_nil_iff]
    intro p hp
    have hb := mem_enumFrom_getElem (lines.take k) 0 p hp
    rcases List.getElem?_eq_some.1 (by simpa using hb.2) with ⟨hlt, _⟩
    rw [List.length_take] at hlt
    simp only [decide_eq_true_eq]
    omega
  have h2 : (List.enumFrom k (lines.drop k)).filter (fun p => k ≤ p.1)
      = List.enumFrom k (lines.drop k) := by
    rw [List.filter_eq_self]
    intro p hp
    have hb := mem_enumFrom_getElem (lines.drop k) k p hp
    simp only [decide_eq_true_eq]
    exact hb.1
  rw [h1, h2, List.nil_append]

lemma filter_split_by_linenum : ∀ (l : List Event) (a : Nat),
    l.map Event.line_num = List.range' a l.length →
    ∀ k, l.filter (fun e => e.line_num < k) ++ l.filter (fun e => k ≤ e.line_num) = l := by
  intro l
  induction l with
  | nil => intro a _ k; rfl
  | cons e rest ih =>
    intro a hmap k
    simp only [List.map_cons, List.length_cons, List.range'_succ] at hmap
    have hhead : e.line_num = a := (List.cons_eq_cons.1 hmap).1
    have htail : rest.map Event.line_num = List.range' (a + 1) rest.length :=
      (List.cons_eq_cons.1 hmap).2
    have htail_ge : ∀ x ∈ rest, a + 1 ≤ x.line_num := by
      intro x hx
      have : x.line_num ∈ rest.map Event.line_num := List.mem_map_of_mem _ hx
      rw [htail] at this
      exact (List.mem_range'_1.1 this).1
    by_cases hak : a < k
    · rw [List.filter_cons_of_pos (by simp only [decide_eq_true_eq]; omega),
          List.filter_cons_of_neg (by simp only [decide_eq_true_eq]; omega)]
      show e :: (rest.filter _ ++ rest.filter _) = _
      rw [ih (a + 1) htail k]
    · rw [List.filter_cons_of_neg (by simp only [decide_eq_true_eq]; omega),
          List.filter_cons_of_pos (by simp only [decide_eq_true_eq]; omega)]
      have hf1 : rest.filter (fun e => e.line_num < k) = [] := by
        rw [List.filter_eq_nil_iff]
        intro x hx
        have := htail_ge x hx
        simp only [decide_eq_true_eq]
        omega
      have hf2 : rest.filter (fun e => k ≤ e.line_num) = rest := by
        rw [List.filter_eq_self]
        intro x hx
        have := htail_ge x hx
        simp only [decide_eq_true_eq]
        omega
      rw [hf1, hf2]
      rfl

lemma mask_shift_reshift (f : Str → Str) (k len : Nat) (b : Event) :
    maskEvent f (shiftStep len b)
      = { maskEvent f (shiftStep k b) with
          step := (maskEvent f (shiftStep k b)).step - k + len } := by
  simp only [maskEvent, shiftStep, Event.mk.injEq, and_true, true_and]
  omega

/-- C1 amended: for format B, the full event list decomposes exactly as the
events with cursor below the split point followed by the events of a parse
resumed at the split point, and token totals add, for every split point.
For format A, for every valid split boundary that does not separate two
lines sharing a (non-empty) message id, the single-shot event list is the
first segment's parse followed by the resumed parse's events with their
`step` fields renumbered to continue from the first segment's event count,
and the aggregate token totals of the two incremental parses sum to the
single-shot totals. -/
theorem resumability_C1_amended :
    (∀ (sanitize : Str → Str) (d : BDoc) (k : Nat),
        (parse_atif_trajectory sanitize (some (some d)) 0).events
          = ((parse_atif_trajectory sanitize (some (some d)) 0).events.filter
              (fun e => e.line_num < k))
            ++ (parse_atif_trajectory sanitize (some (some d)) k).events
        ∧ eventsTokenSum (parse_atif_trajectory sanitize (some (some d)) 0).events
          = (eventsTokenSum ((parse_atif_trajectory sanitize (some (some d)) 0).events.filter
              (fun e => e.line_num < k))).add
            (eventsTokenSum (parse_atif_trajectory sanitize (some (some d)) k).events))
    ∧ (∀ (sanitize : Str → Str) (lines : List ALine) (k : Nat),
        k ≤ lines.length →
        (∀ m, m ∈ idsOfLines (lines.take k) → m ∉ idsOfLines (lines.drop k)) →
        (parse_claude_code_jsonl sanitize (some lines) 0).events
          = (parse_claude_code_jsonl sanitize (some (lines.take k)) 0).events
            ++ ((parse_claude_code_jsonl sanitize (some lines) k).events.map
                (fun e => { e with step := e.step - k
                    + (parse_claude_code_jsonl sanitize (some (lines.take k)) 0).events.length }))
        ∧ eventsTokenSum (parse_claude_code_jsonl sanitize (some lines) 0).events
          = (eventsTokenSum (parse_claude_code_jsonl sanitize (some (lines.take k)) 0).events).add
            (eventsTokenSum (parse_claude_code_jsonl sanitize (some lines) k).events)) := by
  constructor
  · intro sanitize d k
    have hfull : (runBSteps 0 d.steps).filter (fun e => (0 : Nat) ≤ e.line_num)
        = runBSteps 0 d.steps := List.filter_eq_self.2 (fun e _ => by simp)
    have hev0 : (parse_atif_trajectory sanitize (some (some d)) 0).events
        = (runBSteps 0 d.steps).map (maskEvent sanitize) := by
      rw [parseB_events, hfull]
    have hlnmap : (runBSteps 0 d.steps).map Event.line_num
        = List.range' 0 (runBSteps 0 d.steps).length := by
      rw [runBSteps_line_map, List.range_eq_range']
    have hsplit := filter_split_by_linenum (runBSteps 0 d.steps) 0 hlnmap k
    have hfcomm : ((runBSteps 0 d.steps).map (maskEvent sanitize)).filter
          (fun e => e.line_num < k)
        = ((runBSteps 0 d.steps).filter (fun e => e.line_num < k)).map
            (maskEvent sanitize) := by
      rw [List.filter_map]
      rw [show ((fun e => decide (e.line_num < k)) ∘ maskEvent sanitize)
          = (fun e => decide (e.line_num < k)) from by funext e; rfl]
    constructor
    · rw [hev0, parseB_events, hfcomm, ← List.map_append, hsplit]
    · rw [hev0, parseB_events, hfcomm]
      rw [eventsTokenSum_mask, eventsTokenSum_mask, eventsTokenSum_mask]
      conv_lhs => rw [← hsplit]
      rw [eventsTokenSum_append]
  · intro sanitize lines k hk hdisj
    have hA : (parse_claude_code_jsonl sanitize (some (lines.take k)) 0).events
        = (deltaA 0 [] [] (List.enumFrom 0 (lines.take k))).map (maskEvent sanitize) := by
      rw [parseA_events_zero]
      congr 1
    have hstep : (runA (initAState 0) (List.enumFrom 0 (lines.take k))).step
        = (deltaA 0 [] [] (List.enumFrom 0 (lines.take k))).length := by
      rw [runA_step]
      simp [initAState]
    have hAev : (runA (initAState 0) (List.enumFrom 0 (lines.take k))).events
        = deltaA 0 [] [] (List.enumFrom 0 (lines.take k)) := by
      rw [runA_events]
      rfl
    have hcongr : deltaA (runA (initAState 0) (List.enumFrom 0 (lines.take k))).step
          (runA (initAState 0) (List.enumFrom 0 (lines.take k))).seen
          (runA (initAState 0) (List.enumFrom 0 (lines.take k))).acc
          (List.enumFrom k (lines.drop k))
        = deltaA (runA (initAState 0) (List.enumFrom 0 (lines.take k))).step
            [] [] (List.enumFrom k (lines.drop k)) := by
      apply deltaA_congr
      intro m hm
      rw [idsOfPairs_enumFrom] at hm
      have hnotA : m ∉ idsOfLines (lines.take k) := fun hmA => hdisj m hmA hm
      constructor
      · constructor
        · intro hmem
          rcases runA_seen_subset _ _ m hmem with h0 | h0
          · simp [initAState] at h0
          · rw [idsOfPairs_enumFrom] at h0
            exact absurd h0 hnotA
        · intro hmem
          simp at hmem
      · have hnot : ¬ (accLookup
            (runA (initAState 0) (List.enumFrom 0 (lines.take k))).acc m).isSome = true := by
          intro hs
          rcases runA_acc_subset _ _ m hs with h0 | h0
          · simp [initAState, accLookup] at h0
          · rw [idsOfPairs_enumFrom] at h0
            exact absurd h0 hnotA
        have hnone := Option.not_isSome_iff_eq_none.1 hnot
        rw [hnone]
        rfl
    have hshift2 : deltaA (runA (initAState 0) (List.enumFrom 0 (lines.take k))).step
          [] [] (List.enumFrom k (lines.drop k))
        = (deltaA 0 [] [] (List.enumFrom k (lines.drop k))).map
            (shiftStep (runA (initAState 0) (List.enumFrom 0 (lines.take k))).step) :=
      deltaA_shift (List.enumFrom k (lines.drop k))
        (runA (initAState 0) (List.enumFrom 0 (lines.take k))).step 0 [] []
    have hfullev : (parse_claude_code_jsonl sanitize (some lines) 0).events
        = (deltaA 0 [] [] (List.enumFrom 0 (lines.take k))).map (maskEvent sanitize)
          ++ ((deltaA 0 [] [] (List.enumFrom k (lines.drop k))).map
              (shiftStep (deltaA 0 [] [] (List.enumFrom 0 (lines.take k))).length)).map
            (maskEvent sanitize) := by
      rw [parseA_events_zero, enum_take_drop lines k hk, runA_append]
      rw [runA_events (List.enumFrom k (lines.drop k))
            (runA (initAState 0) (List.enumFrom 0 (lines.take k)))]
      rw [hcongr, hshift2, hstep, hAev, List.map_append]
    have hparsek : (parse_claude_code_jsonl sanitize (some lines) k).events
        = ((deltaA 0 [] [] (List.enumFrom k (lines.drop k))).map (shiftStep k)).map
            (maskEvent sanitize) := by
      rw [parseA_events, kept_filter lines k hk]
      congr 1
      exact deltaA_shift (List.enumFrom k (lines.drop k)) k 0 [] []
    rw [hfullev, hA, hparsek]
    constructor
    · congr 1
      simp only [List.length_map, List.map_map]
      apply List.map_congr_left
      intro b _
      show maskEvent sanitize (shiftStep _ b) = _
      rw [mask_shift_reshift sanitize k]
      rfl
    · rw [eventsTokenSum_append]
      congr 1
      · rw [eventsTokenSum_mask, eventsTokenSum_mask]
        rw [eventsTokenSum_map_of_tokens_eq _ _ (shiftStep_tokens _),
            eventsTokenSum_map_of_tokens_eq _ _ (shiftStep_tokens _)]

set_option maxRecDepth 100000 in
/-- C2 counterexample: a logical call whose first physical line carries the
usage block but no recognized content fragment produces, across its lines,
exactly one Event and zero token-carrying Events — the reported tokens are
attached to no event at all, refuting the unconditional "exactly one". -/
theorem single_attribution_C2_counterexample :
    (parse_claude_code_jsonl (fun s => s)
        (some [ALine.assistant
                { id := ("m1".data), usage := { input_tokens := 100 }, content := [] },
               ALine.assistant
                { id := ("m1".data),
                  content := [ABlock.tool_use ("Bash".data)
                    { command := some ("ls".data) } ("t1".data)] }]) 0).events.length = 1
    ∧ (parse_claude_code_jsonl (fun s => s)
        (some [ALine.assistant
                { id := ("m1".data), usage := { input_tokens := 100 }, content := [] },
               ALine.assistant
                { id := ("m1".data),
                  content := [ABlock.tool_use ("Bash".data)
                    { command := some ("ls".data) } ("t1".data)] }]) 0).events.countP
      (fun e => (e.tokens).isSome) = 0 := by
  refine ⟨by decide, by decide⟩

/-- Two format-A lines sharing one message id, each reporting 100 input
tokens (the stream repeats usage on every physical line of a call). -/
def c1LinesDup : List ALine :=
  [ALine.assistant
    { id := ("m1".data), usage := { input_tokens := 100 },
      content := [ABlock.text ("hello".data)] },
   ALine.assistant
    { id := ("m1".data), usage := { input_tokens := 100 },
      content := [ABlock.text ("world".data)] }]

/-- Two format-A lines with distinct message ids and three text blocks in
total, for observing step numbering across a split. -/
def c1LinesStep : List ALine :=
  [ALine.assistant
    { id := ("a".data),
      content := [ABlock.text ("p".data), ABlock.text ("q".data)] },
   ALine.assistant
    { id := ("b".data), content := [ABlock.text ("r".data)] }]

set_option maxRecDepth 100000 in
/-- C1 counterexample: resuming a format-A parse at a saved line cursor and
concatenating is not equivalent to the single-shot parse.  When the lines
of one message id straddle the split, the resumed parse re-attributes the
already-counted usage (concatenated input total 200 versus 100 single-shot),
and the resumed parse numbers steps from the line cursor rather than from
the count of events already emitted, so step numbering disagrees with the
single-shot parse (concatenated steps [0, 1, 1] versus [0, 1, 2]). -/
theorem resumability_C1_counterexample :
    (eventsTokenSum (parse_claude_code_jsonl (fun s => s)
        (some c1LinesDup) 0).events).input_tokens = 100
    ∧ (eventsTokenSum
        ((parse_claude_code_jsonl (fun s => s) (some (c1LinesDup.take 1)) 0).events
          ++ (parse_claude_code_jsonl (fun s => s) (some c1LinesDup) 1).events)).input_tokens
      = 200
    ∧ (parse_claude_code_jsonl (fun s => s) (some c1LinesStep) 0).events.map Event.step
      = [0, 1, 2]
    ∧ ((parse_claude_code_jsonl (fun s => s) (some (c1LinesStep.take 1)) 0).events
        ++ (parse_claude_code_jsonl (fun s => s) (some c1LinesStep) 1).events).map Event.step
      = [0, 1, 1] := by
  refine ⟨by decide, by decide, by decide, by decide⟩

/-- Concrete instance of the amended resumability statement: splitting
`c1LinesStep` at line 1 (a boundary separating the two message ids). -/
theorem resumability_C1_witness :
    (parse_claude_code_jsonl (fun s => s) (some c1LinesStep) 0).events
      = (parse_claude_code_jsonl (fun s => s) (some (c1LinesStep.take 1)) 0).events
        ++ ((parse_claude_code_jsonl (fun s => s) (some c1LinesStep) 1).events.map
            (fun e => { e with step := e.step - 1
                + (parse_claude_code_jsonl (fun s => s)
                    (some (c1LinesStep.take 1)) 0).events.length }))
    ∧ eventsTokenSum (parse_claude_code_jsonl (fun s => s) (some c1LinesStep) 0).events
      = (eventsTokenSum (parse_claude_code_jsonl (fun s => s)
          (some (c1LinesStep.take 1)) 0).events).add
        (eventsTokenSum (parse_claude_code_jsonl (fun s => s) (some c1LinesStep) 1).events) :=
  resumability_C1_amended.2 (fun s => s) c1LinesStep 1 (by decide) (by decide)
